import Mathlib

/-!
Verification development for the rsc/markdown Markdown processor.

Go strings are modelled as lists of bytes (`List Nat`), since the source
indexes strings by byte. Each Lean definition is a direct translation of the
Go function of the same name; loops that are not structurally recursive are
written with an explicit fuel argument (always called with fuel strictly
larger than the number of loop iterations, so the fuel never runs out).
Functions whose Go original can panic return an `Option`, with `none`
marking the panic.
-/

namespace MD

/-! ## Bytes and generic helpers -/

/-- Byte value of the space character. -/
def bSpace : Nat := 32
/-- Byte value of the tab character. -/
def bTab : Nat := 9
/-- Byte value of the vertical-tab character. -/
def bVT : Nat := 11
/-- Byte value of the form-feed character. -/
def bFF : Nat := 12
/-- Byte value of the newline character. -/
def bNL : Nat := 10
/-- Byte value of the pipe character. -/
def bPipe : Nat := 124
/-- Byte value of the colon character. -/
def bColon : Nat := 58
/-- Byte value of the dash character. -/
def bDash : Nat := 45
/-- Byte value of the backslash character. -/
def bBackslash : Nat := 92
/-- Byte value of the backquote character. -/
def bTick : Nat := 96
/-- Byte value of the left bracket character. -/
def bLBrack : Nat := 91
/-- Byte value of the right bracket character. -/
def bRBrack : Nat := 93

/-- UTF-8 encoding of one Unicode code point, as Go strings store it. -/
def utf8Bytes (n : Nat) : List Nat :=
  if n < 0x80 then [n]
  else if n < 0x800 then [0xC0 + n / 64, 0x80 + n % 64]
  else if n < 0x10000 then [0xE0 + n / 4096, 0x80 + n / 64 % 64, 0x80 + n % 64]
  else [0xF0 + n / 262144, 0x80 + n / 4096 % 64, 0x80 + n / 64 % 64, 0x80 + n % 64]

/-- Bytes of a Lean string literal, used to transcribe Go string literals. -/
def bs (s : String) : List Nat :=
  (s.data.map fun c => utf8Bytes c.toNat).flatten

/-- Drop trailing bytes satisfying p (used to model right-trimming). -/
def dropTrailing (p : Nat → Bool) (l : List Nat) : List Nat :=
  (l.reverse.dropWhile p).reverse

/-- Skip a single leading byte b if present (models a conditional i++ in Go). -/
def skipByte (b : Nat) : List Nat → List Nat
  | [] => []
  | c :: rest => if c = b then rest else c :: rest

theorem skipByte_length_le (b : Nat) (l : List Nat) : (skipByte b l).length ≤ l.length := by
  cases l with
  | nil => simp [skipByte]
  | cons c rest =>
    simp only [skipByte]
    split <;> simp

/-! ## Tables (table.go)

The `Text` cells produced by `parseRow` are modelled by their string
content; the `Position` recorded in each cell plays no role in the
properties below. -/

/-- Translation of isTableSpace (table.go): space, tab, vertical tab, form feed. -/
def isTableSpace (c : Nat) : Bool :=
  c == bSpace || c == bTab || c == bVT || c == bFF

/-- Translation of tableTrimSpace (table.go): trim table spaces from both ends.
This also models strings.Trim(s, " \t\v\f") used in parseRow, which trims the
same byte set. -/
def tableTrimSpace (s : List Nat) : List Nat :=
  dropTrailing isTableSpace (s.dropWhile isTableSpace)

/-- Translation of tableTrimOuter (table.go): trim spaces, then at most one
leading and one trailing pipe. -/
def tableTrimOuter (row : List Nat) : List Nat :=
  let row1 := skipByte bPipe (tableTrimSpace row)
  match row1.getLast? with
  | some c => if c = bPipe then row1.dropLast else row1
  | none => row1

/-- Loop of tableCount (table.go): count cells separated by unescaped pipes.
prev is the previous byte (0 before the first iteration). -/
def tableCountLoop : List Nat → Nat → Nat → Nat
  | [], _, col => col
  | c :: rest, prev, col =>
      tableCountLoop rest c (if c == bPipe && prev != bBackslash then col + 1 else col)

/-- Translation of tableCount (table.go), applied to an already-trimmed row. -/
def tableCount (row : List Nat) : Nat :=
  tableCountLoop row 0 1

/-- Loop of the delimiter-row scan in isTableStart (table.go), counting
columns. Fuel bounds the number of iterations; none is returned when the Go
loop returns false. One iteration: skip spaces, stop at end of input, then
require an optional colon, at least one dash, more dashes, an optional colon,
spaces, and an optional pipe. -/
def delimScanF : Nat → List Nat → Nat → Option Nat
  | 0, _, _ => none
  | fuel + 1, delim, col =>
    match delim.dropWhile isTableSpace with
    | [] => some col
    | d1 :: ds =>
      match skipByte bColon (d1 :: ds) with
      | [] => none
      | c :: rest =>
        if c ≠ bDash then none
        else
          let d3 := rest.dropWhile (fun x => x == bDash)
          let d4 := skipByte bColon d3
          let d5 := d4.dropWhile isTableSpace
          let d6 := skipByte bPipe d5
          delimScanF fuel d6 (col + 1)

/-- Delimiter-row scan with enough fuel for any input. -/
def delimScan (delim : List Nat) : Option Nat :=
  delimScanF (delim.length + 1) delim 0

/-- Translation of isTableStart (table.go): scan the delimiter row counting
columns, reject a header that is a lone pipe, and require the column counts
of the delimiter row and header row to agree. -/
def isTableStart (hdr1 delim1 : List Nat) : Bool :=
  match delimScan (tableTrimOuter delim1) with
  | none => false
  | some col =>
    if tableTrimSpace hdr1 = [bPipe] then false
    else col == tableCount (tableTrimOuter hdr1)

/-- Translation of tableUnescape (table.go): rewrite each escaped pipe to a pipe. -/
def tableUnescape : List Nat → List Nat
  | [] => []
  | [c] => [c]
  | c :: d :: rest =>
    if c = bBackslash ∧ d = bPipe then bPipe :: tableUnescape rest
    else c :: tableUnescape (d :: rest)

/-- Cell text as built by parseRow (table.go): trim table spaces from the raw
slice, then unescape pipes when an escaped pipe was seen while scanning it. -/
def mkCell (cur : List Nat) (unesc : Bool) : List Nat :=
  if unesc then tableUnescape (tableTrimSpace cur) else tableTrimSpace cur

/-- Padding step at the end of parseRow (table.go): missing cells are
considered empty. -/
def padCells (width : Nat) (out : List (List Nat)) : List (List Nat) :=
  out ++ List.replicate (width - out.length) []

/-- Loop of parseRow (table.go). cur is the current cell slice (row[start:i]),
unesc records whether it contains an escaped pipe. Cells beyond width are
discarded; missing cells are added as empty. -/
def parseRowLoop (width : Nat) : List Nat → List (List Nat) → List Nat → Bool → List (List Nat)
  | [], out, cur, unesc => padCells width (out ++ [mkCell cur unesc])
  | [c], out, cur, unesc =>
    if c = bPipe then
      let out2 := out ++ [mkCell cur unesc]
      if out2.length = width then out2
      else padCells width (out2 ++ [mkCell [] false])
    else padCells width (out ++ [mkCell (cur ++ [c]) unesc])
  | c :: d :: rest, out, cur, unesc =>
    if c = bBackslash ∧ d = bPipe then
      parseRowLoop width rest out (cur ++ [c, d]) true
    else if c = bPipe then
      let out2 := out ++ [mkCell cur unesc]
      if out2.length = width then out2
      else parseRowLoop width (d :: rest) out2 [] false
    else parseRowLoop width (d :: rest) out (cur ++ [c]) unesc

/-- Translation of parseRow (table.go), applied to an already-trimmed row. -/
def parseRow (row : List Nat) (width : Nat) : List (List Nat) :=
  parseRowLoop width row [] [] false

/-- Translation of tableAlign (table.go). The Go function indexes cell[0]
and cell[len(cell)-1] without checking for an empty cell; none models the
resulting index-out-of-range panic. -/
def tableAlignOpt (cell : List Nat) : Option (List Nat) :=
  match tableTrimSpace cell with
  | [] => none
  | c :: cs =>
    let l := c == bColon
    let r := (c :: cs).getLast? == some bColon
    if l && r then some (bs "center")
    else if l then some (bs "left")
    else if r then some (bs "right")
    else some []

/-- Loop of parseAlign (table.go): split the delimiter row at every pipe and
convert each piece with tableAlign. none propagates the tableAlign panic. -/
def parseAlignLoop : List Nat → List Nat → List (List Nat) → Option (List (List Nat))
  | [], cur, acc =>
    match tableAlignOpt cur with
    | none => none
    | some a => some (acc ++ [a])
  | c :: rest, cur, acc =>
    if c = bPipe then
      match tableAlignOpt cur with
      | none => none
      | some a => parseAlignLoop rest [] (acc ++ [a])
    else parseAlignLoop rest (cur ++ [c]) acc

/-- Translation of parseAlign (table.go). The width argument of the Go
function is used only as a capacity hint and is dropped here. -/
def parseAlign (delim : List Nat) : Option (List (List Nat)) :=
  parseAlignLoop delim [] []

/-- Shape of a built Table (table.go): header cells, alignment strings, body
rows, with cells modelled by their text content. -/
structure TableShape where
  header : List (List Nat)
  align : List (List Nat)
  rows : List (List (List Nat))
  deriving Repr, DecidableEq

/-- Translation of tableBuilder.build (table.go), starting from the
already-trimmed header, delimiter, and data lines stored by
tableBuilder.start and tableBuilder.addRow. none models the panic inside
parseAlign. -/
def tableBuild (bhdr bdelim : List Nat) (brows : List (List Nat)) : Option TableShape :=
  let width := tableCount bhdr
  match parseAlign bdelim with
  | none => none
  | some align =>
    some { header := parseRow bhdr width
           align := align
           rows := brows.map (fun r => parseRow r width) }

/-- Table building as invoked from the paragraph builder: the builder stores
tableTrimOuter of the header line, the delimiter line, and each data line. -/
def tableBuildFromLines (hdr delim : List Nat) (rows : List (List Nat)) : Option TableShape :=
  tableBuild (tableTrimOuter hdr) (tableTrimOuter delim) (rows.map tableTrimOuter)


/-! ## Cell-split characterization of parseRow, and length lemmas -/

/-- Unbounded cell split: the parseRow loop without width cutoff or padding. -/
def splitCellsLoop : List Nat → List Nat → Bool → List (List Nat)
  | [], cur, unesc => [mkCell cur unesc]
  | [c], cur, unesc =>
    if c = bPipe then [mkCell cur unesc, mkCell [] false]
    else [mkCell (cur ++ [c]) unesc]
  | c :: d :: rest, cur, unesc =>
    if c = bBackslash ∧ d = bPipe then splitCellsLoop rest (cur ++ [c, d]) true
    else if c = bPipe then mkCell cur unesc :: splitCellsLoop (d :: rest) [] false
    else splitCellsLoop (d :: rest) (cur ++ [c]) unesc

/-- Cells of a row, in order, with no width adjustment. -/
def splitCells (row : List Nat) : List (List Nat) :=
  splitCellsLoop row [] false

/-- Truncate to width cells, right-padding with empty cells if fewer. -/
def padTrunc (width : Nat) (cs : List (List Nat)) : List (List Nat) :=
  cs.take width ++ List.replicate (width - cs.length) []

theorem padTrunc_length (width : Nat) (cs : List (List Nat)) :
    (padTrunc width cs).length = width := by
  simp [padTrunc]
  omega

theorem tableCountLoop_le (l : List Nat) : ∀ prev col, col ≤ tableCountLoop l prev col := by
  induction l with
  | nil => intro prev col; simp [tableCountLoop]
  | cons c rest ih =>
    intro prev col
    simp only [tableCountLoop]
    refine le_trans ?_ (ih c _)
    split <;> omega

theorem one_le_tableCount (row : List Nat) : 1 ≤ tableCount row :=
  tableCountLoop_le row 0 1

theorem padTrunc_append_of_length_eq (cs : List (List Nat)) (more : List (List Nat))
    (width : Nat) (h : cs.length = width) : padTrunc width (cs ++ more) = cs := by
  subst h
  simp [padTrunc, List.take_left]

theorem padTrunc_of_le (cs : List (List Nat)) (width : Nat) (h : cs.length ≤ width) :
    padTrunc width cs = cs ++ List.replicate (width - cs.length) [] := by
  simp [padTrunc, List.take_of_length_le h]

theorem parseRowLoop_eq (width : Nat) (l : List Nat) (out : List (List Nat))
    (cur : List Nat) (unesc : Bool) (h : out.length < width) :
    parseRowLoop width l out cur unesc = padTrunc width (out ++ splitCellsLoop l cur unesc) := by
  induction l, out, cur, unesc using parseRowLoop.induct width with
  | case1 out cur unesc =>
    have hlen : (out ++ [mkCell cur unesc]).length ≤ width := by simp; omega
    simp [parseRowLoop, splitCellsLoop, padCells, padTrunc_of_le _ _ hlen]
  | case2 out cur unesc out2 h2 =>
    have h2a : (out ++ [mkCell cur unesc]).length = width := h2
    simp only [parseRowLoop, splitCellsLoop, if_pos rfl, if_true, if_pos h2a]
    rw [show out ++ [mkCell cur unesc, mkCell [] false] =
        (out ++ [mkCell cur unesc]) ++ [mkCell [] false] by simp]
    rw [padTrunc_append_of_length_eq _ _ _ h2a]
  | case3 out cur unesc out2 h2 =>
    have h2a : ¬ (out ++ [mkCell cur unesc]).length = width := h2
    simp only [parseRowLoop, splitCellsLoop, if_pos rfl, if_true, if_neg h2a]
    have hlen : (out ++ [mkCell cur unesc] ++ [mkCell [] false]).length ≤ width := by
      simp at h2a ⊢
      omega
    rw [padCells, padTrunc_of_le _ _ (by simpa using hlen)]
    simp
  | case4 c out cur unesc hc =>
    have hlen : (out ++ [mkCell (cur ++ [c]) unesc]).length ≤ width := by simp; omega
    simp [parseRowLoop, splitCellsLoop, if_neg hc, padCells, padTrunc_of_le _ _ hlen]
  | case5 c d rest out cur unesc hcd ih =>
    simp only [parseRowLoop, splitCellsLoop, if_pos hcd]
    exact ih h
  | case6 d rest out cur unesc out2 h2 hne =>
    have h2a : (out ++ [mkCell cur unesc]).length = width := h2
    simp only [parseRowLoop, splitCellsLoop, if_neg hne, if_pos rfl, if_true, if_pos h2a]
    rw [show out ++ mkCell cur unesc :: splitCellsLoop (d :: rest) [] false =
        (out ++ [mkCell cur unesc]) ++ splitCellsLoop (d :: rest) [] false by simp]
    rw [padTrunc_append_of_length_eq _ _ _ h2a]
  | case7 d rest out cur unesc out2 h2 hne ih =>
    have h2a : ¬ (out ++ [mkCell cur unesc]).length = width := h2
    simp only [parseRowLoop, splitCellsLoop, if_neg hne, if_pos rfl, if_true, if_neg h2a]
    have hlt : (out ++ [mkCell cur unesc]).length < width := by
      simp at h2a ⊢
      omega
    rw [ih hlt]
    have : out ++ mkCell cur unesc :: splitCellsLoop (d :: rest) [] false =
        (out ++ [mkCell cur unesc]) ++ splitCellsLoop (d :: rest) [] false := by simp
    rw [this]
  | case8 c d rest out cur unesc hcd hc ih =>
    simp only [parseRowLoop, splitCellsLoop, if_neg hcd, if_neg hc]
    exact ih h

theorem parseRow_eq (row : List Nat) (width : Nat) (h : 0 < width) :
    parseRow row width = padTrunc width (splitCells row) :=
  parseRowLoop_eq width row [] [] false h

theorem parseAlignLoop_length (l : List Nat) : ∀ (cur : List Nat) (acc r : List (List Nat)),
    parseAlignLoop l cur acc = some r →
    r.length = acc.length + l.count bPipe + 1 := by
  induction l with
  | nil =>
    intro cur acc r hr
    simp only [parseAlignLoop] at hr
    cases hal : tableAlignOpt cur with
    | none => rw [hal] at hr; exact absurd hr (by simp)
    | some a =>
      rw [hal] at hr
      simp at hr
      subst hr
      simp
  | cons c rest ih =>
    intro cur acc r hr
    simp only [parseAlignLoop] at hr
    by_cases hc : c = bPipe
    · rw [if_pos hc] at hr
      cases hal : tableAlignOpt cur with
      | none => rw [hal] at hr; exact absurd hr (by simp)
      | some a =>
        rw [hal] at hr
        have := ih [] (acc ++ [a]) r hr
        simp only [this, hc, List.count_cons, List.length_append, List.length_cons]
        simp
        omega
    · rw [if_neg hc] at hr
      have := ih (cur ++ [c]) acc r hr
      simp only [this, List.count_cons]
      have hbc : (bPipe == c) = false := by
        simp [Ne.symm hc]
      simp [hbc, hc]

/-! ## Claim C1 -/

/-- Claim C1, amended. For a Table built from a header line, delimiter line,
and data lines that pass isTableStart (and for which the build does not
panic): the header has exactly tableCount-of-header cells; every body row is
the cell split of the row right-padded with empty cells or truncated to
exactly that many cells; and the alignment vector has one entry per
pipe-separated piece of the trimmed delimiter row. The original claim also
asserted len(Align) = len(Header), which is false: delimiter cells may be
separated by spaces alone, giving fewer alignment entries than header cells
(see the counterexample). -/
theorem claim1_table_shape (hdr delim : List Nat) (rows : List (List Nat)) (t : TableShape)
    (hstart : isTableStart hdr delim = true)
    (hbuild : tableBuildFromLines hdr delim rows = some t) :
    t.header.length = tableCount (tableTrimOuter hdr) ∧
    t.header = padTrunc (tableCount (tableTrimOuter hdr)) (splitCells (tableTrimOuter hdr)) ∧
    t.rows = rows.map (fun r =>
      padTrunc (tableCount (tableTrimOuter hdr)) (splitCells (tableTrimOuter r))) ∧
    (∀ row ∈ t.rows, row.length = t.header.length) ∧
    t.align.length = (tableTrimOuter delim).count bPipe + 1 := by
  clear hstart
  unfold tableBuildFromLines tableBuild at hbuild
  cases hal : parseAlign (tableTrimOuter delim) with
  | none => rw [hal] at hbuild; exact absurd hbuild (by simp)
  | some align =>
    rw [hal] at hbuild
    simp only [Option.some.injEq] at hbuild
    subst hbuild
    have hw : 0 < tableCount (tableTrimOuter hdr) := one_le_tableCount _
    have halen := parseAlignLoop_length _ _ _ _ hal
    refine ⟨?_, ?_, ?_, ?_, ?_⟩
    · simp [parseRow_eq _ _ hw, padTrunc_length]
    · simp [parseRow_eq _ _ hw]
    · simp only [List.map_map]
      congr 1
      funext r
      simp [parseRow_eq _ _ hw]
    · intro row hrow
      simp only [List.mem_map] at hrow
      obtain ⟨r, _, hr⟩ := hrow
      subst hr
      simp [parseRow_eq _ _ hw, padTrunc_length]
    · simpa using halen

/-- Claim C1 counterexample: with Table enabled, the input consisting of the
header line "a|b" followed by the delimiter line ":- -" starts a table (the
delimiter scan counts two columns, matching the header), yet the built Table
has a one-entry alignment vector and a two-cell header, so
len(T.Align) = len(T.Header) fails. -/
theorem claim1_counterexample :
    isTableStart (bs "a|b") (bs ":- -") = true ∧
    tableBuildFromLines (bs "a|b") (bs ":- -") [] =
      some { header := [bs "a", bs "b"], align := [bs "left"], rows := [] } ∧
    ¬ [bs "left"].length = [bs "a", bs "b"].length := by
  refine ⟨by decide, by decide, by decide⟩

/-- Claim C1 witness: a concrete table (header "foo | bar", delimiter
"--- | ---", one body row with an extra cell and one with a missing cell)
satisfying the hypotheses and conclusions of the amended claim. -/
theorem claim1_witness :
    isTableStart (bs "foo | bar") (bs "--- | ---") = true ∧
    tableBuildFromLines (bs "foo | bar") (bs "--- | ---")
        [bs "baz | bim | extra", bs "x"] =
      some { header := [bs "foo", bs "bar"], align := [[], []],
             rows := [[bs "baz", bs "bim"], [bs "x", []]] } ∧
    ([bs "foo", bs "bar"].length = tableCount (tableTrimOuter (bs "foo | bar")) ∧
     [bs "foo", bs "bar"] = padTrunc (tableCount (tableTrimOuter (bs "foo | bar")))
       (splitCells (tableTrimOuter (bs "foo | bar"))) ∧
     [[bs "baz", bs "bim"], [bs "x", []]] = [bs "baz | bim | extra", bs "x"].map (fun r =>
       padTrunc (tableCount (tableTrimOuter (bs "foo | bar"))) (splitCells (tableTrimOuter r))) ∧
     (∀ row ∈ [[bs "baz", bs "bim"], [bs "x", []]], row.length = [bs "foo", bs "bar"].length) ∧
     ([[], []] : List (List Nat)).length = (tableTrimOuter (bs "--- | ---")).count bPipe + 1) :=
  ⟨by decide, by decide,
    claim1_table_shape (bs "foo | bar") (bs "--- | ---") [bs "baz | bim | extra", bs "x"]
      { header := [bs "foo", bs "bar"], align := [[], []],
        rows := [[bs "baz", bs "bim"], [bs "x", []]] }
      (by decide) (by decide)⟩

/-! ## Claim C2 -/

/-- Claim C2 fails on the code: with Table enabled, the two-line input
"a" / "-||" passes isTableStart (the delimiter trims to "-|" and scans as
one column, matching the one-column header), but building the table panics:
parseAlign reaches tableAlign with the empty cell after the trailing pipe,
and tableAlign indexes cell[0] of an empty string. In this model the panic
is the none result of tableBuildFromLines. -/
theorem claim2_tableAlign_panic :
    isTableStart (bs "a") (bs "-||") = true ∧
    tableBuildFromLines (bs "a") (bs "-||") [] = none ∧
    tableAlignOpt [] = none := by
  refine ⟨by decide, by decide, by decide⟩


/-! ## Code spans in the Markdown renderer (inline.go: Code.printMarkdown, maxRun, printTicks) -/

/-- Loop of maxRun (inline.go): m is the longest run seen, n the current run. -/
def maxRunLoop (b : Nat) : List Nat → Nat → Nat → Nat
  | [], m, _ => m
  | c :: rest, m, n =>
    if c = b then maxRunLoop b rest (max m (n + 1)) (n + 1)
    else maxRunLoop b rest m 0

/-- Translation of maxRun (inline.go): length of the longest run of b in s. -/
def maxRun (s : List Nat) (b : Nat) : Nat :=
  maxRunLoop b s 0 0

/-- The ticks constant (inline.go): 64 backquotes. -/
def ticks : List Nat := List.replicate 64 bTick

/-- Loop of printTicks (inline.go), printing n backquotes in chunks of at
most 64. Fuel bounds the iterations (printTicks calls it with fuel n+1,
and each iteration decreases n by 64). -/
def printTicksF : Nat → Nat → List Nat
  | 0, _ => []
  | fuel + 1, n => if n > 64 then ticks ++ printTicksF fuel (n - 64) else ticks.take n

/-- Translation of printTicks (inline.go). -/
def printTicks (n : Nat) : List Nat :=
  printTicksF (n + 1) n

/-- Translation of Code.printMarkdown (inline.go): delimit with
maxRun(text)+1 backquotes and add one space on each side when the text is
empty or begins or ends with a backquote. -/
def codePrintMarkdown (text : List Nat) : List Nat :=
  let n := maxRun text bTick + 1
  let space := text.length = 0 || (text.head? == some bTick) || (text.getLast? == some bTick)
  printTicks n ++ (if space then [bSpace] else []) ++ text ++
    (if space then [bSpace] else []) ++ printTicks n

/-- Decides whether k consecutive copies of b occur somewhere in the list. -/
def hasRunB (b k : Nat) : List Nat → Bool
  | [] => k = 0
  | c :: rest => (List.take k (c :: rest) == List.replicate k b) || hasRunB b k rest

/-- Helper: longest run of b in l when a run of length n is already open on
the left. -/
def maxRunCont (b : Nat) : List Nat → Nat → Nat
  | [], n => n
  | c :: rest, n =>
    if c = b then maxRunCont b rest (n + 1) else max n (maxRunCont b rest 0)

theorem le_maxRunCont (b : Nat) (l : List Nat) : ∀ n, n ≤ maxRunCont b l n := by
  induction l with
  | nil => intro n; simp [maxRunCont]
  | cons c rest ih =>
    intro n
    simp only [maxRunCont]
    split
    · exact le_trans (Nat.le_succ n) (ih (n + 1))
    · exact le_max_left _ _

theorem maxRunCont_mono (b : Nat) (l : List Nat) :
    ∀ n n', n ≤ n' → maxRunCont b l n ≤ maxRunCont b l n' := by
  induction l with
  | nil => intro n n' h; simpa [maxRunCont] using h
  | cons c rest ih =>
    intro n n' h
    simp only [maxRunCont]
    split
    · exact ih _ _ (by omega)
    · exact max_le_max h le_rfl

theorem maxRunLoop_eq (b : Nat) (l : List Nat) :
    ∀ m n, n ≤ m → maxRunLoop b l m n = max m (maxRunCont b l n) := by
  induction l with
  | nil => intro m n h; simp [maxRunLoop, maxRunCont]; omega
  | cons c rest ih =>
    intro m n h
    simp only [maxRunLoop, maxRunCont]
    split
    · rw [ih (max m (n + 1)) (n + 1) (le_max_right _ _)]
      have h1 : n + 1 ≤ maxRunCont b rest (n + 1) := le_maxRunCont b rest (n + 1)
      omega
    · rw [ih m 0 (Nat.zero_le m)]
      omega

theorem maxRun_eq_cont (s : List Nat) (b : Nat) : maxRun s b = maxRunCont b s 0 := by
  rw [maxRun, maxRunLoop_eq b s 0 0 le_rfl]
  omega

/-- A run of k leading copies of b gives a take equal to replicate. -/
theorem take_eq_replicate_of_le_leadRun (b k : Nat) (l : List Nat)
    (h : k ≤ (l.takeWhile (fun x => x == b)).length) :
    List.take k l = List.replicate k b := by
  induction l generalizing k with
  | nil => simp at h; simp [h]
  | cons c rest ih =>
    cases k with
    | zero => simp
    | succ k =>
      by_cases hc : c = b
      · subst hc
        rw [List.takeWhile_cons] at h
        simp at h
        simp [List.take_succ_cons, List.replicate_succ, ih k (by omega)]
      · rw [List.takeWhile_cons] at h
        simp [hc] at h

theorem maxRunCont_replicate_ge (b k : Nat) (t : List Nat) :
    ∀ n, n + k ≤ maxRunCont b (List.replicate k b ++ t) n := by
  induction k with
  | zero => intro n; simpa using le_maxRunCont b t n
  | succ k ih =>
    intro n
    simp only [List.replicate_succ, List.cons_append, maxRunCont, if_pos rfl, if_true,
      List.append_eq]
    have := ih (n + 1)
    omega

theorem maxRunCont_cons_ge (b c : Nat) (l : List Nat) :
    maxRunCont b l 0 ≤ maxRunCont b (c :: l) 0 := by
  simp only [maxRunCont]
  split
  · exact le_trans (maxRunCont_mono b l 0 1 (by omega)) le_rfl
  · exact le_max_right _ _

theorem hasRun_le_maxRun (b k : Nat) (l : List Nat) (h : hasRunB b k l = true) :
    k ≤ maxRunCont b l 0 := by
  induction l with
  | nil =>
    simp [hasRunB] at h
    simp [maxRunCont, h]
  | cons c rest ih =>
    simp only [hasRunB, Bool.or_eq_true, beq_iff_eq] at h
    cases h with
    | inl h =>
      have hlen : k ≤ (c :: rest).length := by
        have h1 := congrArg List.length h
        rw [List.length_take, List.length_replicate] at h1
        omega
      have : c :: rest = List.replicate k b ++ List.drop k (c :: rest) := by
        conv_lhs => rw [← List.take_append_drop k (c :: rest)]
        rw [h]
      rw [this]
      simpa using maxRunCont_replicate_ge b k (List.drop k (c :: rest)) 0
    | inr h =>
      exact le_trans (ih h) (maxRunCont_cons_ge b c rest)

theorem maxRun_le_hasRun (b : Nat) (l : List Nat) :
    ∀ k n, k ≤ maxRunCont b l n →
      k ≤ n + (l.takeWhile (fun x => x == b)).length ∨ hasRunB b k l = true := by
  induction l with
  | nil => intro k n h; simp [maxRunCont] at h; left; simpa using h
  | cons c rest ih =>
    intro k n h
    simp only [maxRunCont] at h
    by_cases hc : c = b
    · rw [if_pos hc] at h
      rcases ih k (n + 1) h with h1 | h1
      · left
        subst hc
        rw [List.takeWhile_cons]
        simp
        omega
      · right
        simp [hasRunB, h1]
    · rw [if_neg hc] at h
      rcases le_max_iff.mp h with h1 | h1
      · left; omega
      · rcases ih k 0 h1 with h2 | h2
        · right
          have : List.take k rest = List.replicate k b :=
            take_eq_replicate_of_le_leadRun b k rest (by omega)
          simp only [hasRunB, Bool.or_eq_true]
          right
          cases rest with
          | nil =>
            simp at this
            simp [hasRunB, this]
          | cons d rest2 => simp [hasRunB, this]
        · right
          simp [hasRunB, h2]

/-- No run of maxRun+1 copies of b occurs in l. -/
theorem hasRunB_maxRun_succ (b : Nat) (l : List Nat) :
    hasRunB b (maxRun l b + 1) l = false := by
  by_contra h
  have h1 : hasRunB b (maxRun l b + 1) l = true := by
    cases h2 : hasRunB b (maxRun l b + 1) l
    · exact absurd h2 h
    · rfl
  have := hasRun_le_maxRun b (maxRun l b + 1) l h1
  rw [maxRun_eq_cont] at this
  omega

/-- Every positive count up to maxRun occurs as a run in l. -/
theorem hasRunB_of_le_maxRun (b k : Nat) (l : List Nat) (h1 : 1 ≤ k)
    (h2 : k ≤ maxRun l b) : hasRunB b k l = true := by
  rw [maxRun_eq_cont] at h2
  rcases maxRun_le_hasRun b l k 0 h2 with h3 | h3
  · have : List.take k l = List.replicate k b :=
      take_eq_replicate_of_le_leadRun b k l (by omega)
    cases l with
    | nil =>
      simp at this
      omega
    | cons c rest => simp [hasRunB, this]
  · exact h3

theorem printTicksF_eq (fuel : Nat) : ∀ n, n ≤ fuel →
    printTicksF fuel n = List.replicate n bTick := by
  induction fuel with
  | zero => intro n h; interval_cases n; simp [printTicksF]
  | succ fuel ih =>
    intro n h
    simp only [printTicksF]
    split
    · rw [ih (n - 64) (by omega)]
      rw [ticks, show n = 64 + (n - 64) by omega]
      simp [List.replicate_add]
    · rw [ticks, List.take_replicate]
      congr 1
      omega

theorem printTicks_eq (n : Nat) : printTicks n = List.replicate n bTick :=
  printTicksF_eq (n + 1) n (by omega)

/-! ## Claim C6 -/

/-- Claim C6. The Markdown rendering of a Code inline is the text delimited
by n = maxRun(text)+1 backquotes, where n is exactly the smallest backtick
count that does not occur as n consecutive backticks anywhere in the text
(no n-run occurs, and every positive m below n does occur); one leading
and one trailing space are inserted exactly when the text is empty or
begins or ends with a backtick. -/
theorem claim6_code_markdown (text : List Nat) :
    codePrintMarkdown text =
      List.replicate (maxRun text bTick + 1) bTick ++
      (if text = [] ∨ text.head? = some bTick ∨ text.getLast? = some bTick
       then [bSpace] else []) ++ text ++
      (if text = [] ∨ text.head? = some bTick ∨ text.getLast? = some bTick
       then [bSpace] else []) ++
      List.replicate (maxRun text bTick + 1) bTick ∧
    hasRunB bTick (maxRun text bTick + 1) text = false ∧
    (∀ m, 1 ≤ m → m ≤ maxRun text bTick → hasRunB bTick m text = true) := by
  refine ⟨?_, hasRunB_maxRun_succ bTick text, fun m h1 h2 => hasRunB_of_le_maxRun bTick m text h1 h2⟩
  rw [codePrintMarkdown]
  simp only [printTicks_eq]
  have hcond : (text.length = 0 || (text.head? == some bTick) || (text.getLast? == some bTick)) =
      decide (text = [] ∨ text.head? = some bTick ∨ text.getLast? = some bTick) := by
    by_cases h1 : text = [] <;> by_cases h2 : text.head? = some bTick <;>
      by_cases h3 : text.getLast? = some bTick <;>
      simp [h1, h2, h3, List.length_eq_zero]
  rw [hcond]
  by_cases hsp : text = [] ∨ text.head? = some bTick ∨ text.getLast? = some bTick
  · simp [hsp]
  · simp [hsp]


/-- Claim C6 witness: the theorem applied to the concrete text "a`b":
delimiters use 2 backticks (no 2-run occurs in the text, a 1-run does). -/
theorem claim6_witness :
    hasRunB bTick (maxRun (bs "a`b") bTick + 1) (bs "a`b") = false ∧
    hasRunB bTick 1 (bs "a`b") = true :=
  ⟨(claim6_code_markdown (bs "a`b")).2.1,
   (claim6_code_markdown (bs "a`b")).2.2 1 (by decide) (by decide)⟩

/-! ## Backtick code spans in the inline scanner (inline.go: backtickParser.parseCodeSpan) -/

/-- Translation of isSpaceTab: the byte set trimmed by trimSpace (break.go),
which removes spaces and tabs from both ends. -/
def isSpaceTab (c : Nat) : Bool :=
  c == bSpace || c == bTab

/-- Translation of trimSpace (break.go): trim spaces and tabs from both ends. -/
def trimSpace (s : List Nat) : List Nat :=
  dropTrailing isSpaceTab (s.dropWhile isSpaceTab)

/-- Length of the backtick run at position i of s (number of consecutive
backticks starting there). -/
def tickRunFrom (s : List Nat) (i : Nat) : Nat :=
  ((s.drop i).takeWhile (fun c => c == bTick)).length

/-- The run count n at the start of parseCodeSpan (inline.go): the byte at
start is a backtick (checked by the caller) and counts as 1. -/
def nTicks (s : List Nat) (start : Nat) : Nat :=
  1 + tickRunFrom s (start + 1)

/-- Text transformation of a matched code span (inline.go, match branch of
parseCodeSpan): line endings become single spaces; if the result starts and
ends with a space and trimSpace leaves something, one space is removed from
each end. -/
def spanText (raw : List Nat) : List Nat :=
  let text := raw.map (fun c => if c = bNL then bSpace else c)
  if 2 ≤ text.length ∧ text.head? = some bSpace ∧ text.getLast? = some bSpace ∧
      trimSpace text ≠ [] then
    (text.drop 1).dropLast
  else text

/-- State of backtickParser (inline.go): last[m-1] holds the start offset of
the final run of exactly m backticks seen during a full scan; scanned says
whether a full scan has happened. -/
structure BacktickState where
  last : List Nat
  scanned : Bool
  deriving Repr, DecidableEq

/-- Fresh backtickParser state: eighty zero entries, not yet scanned. -/
def backtickInit : BacktickState :=
  { last := List.replicate 80 0, scanned := false }

/-- Scan loop of parseCodeSpan (inline.go): starting at endPos, look for a
run of exactly n backticks, recording run positions in last when not yet
scanned. Returns the match (run start, position after the run) if any,
plus the updated last array. Fuel bounds the iterations. -/
def codeScanF : Nat → List Nat → Nat → Nat → List Nat → Bool →
    Option (Nat × Nat) × List Nat
  | 0, _, _, _, last, _ => (none, last)
  | fuel + 1, s, endPos, n, last, scanned =>
    if endPos ≥ s.length then (none, last)
    else if s.getD endPos 0 ≠ bTick then codeScanF fuel s (endPos + 1) n last scanned
    else
      let estart := endPos
      let m := tickRunFrom s endPos
      let last2 := if ¬ scanned ∧ m < 80 then last.set (m - 1) estart else last
      if m = n then (some (estart, endPos + m), last2)
      else codeScanF fuel s (endPos + m) n last2 scanned

/-- Result of parseCodeSpan: either a Code inline with the enclosed text or
a Plain run of backticks. -/
inductive SpanResult where
  | code (text : List Nat)
  | plain (text : List Nat)
  deriving Repr, DecidableEq

/-- Translation of backtickParser.parseCodeSpan (inline.go). The caller
guarantees s[start] is a backtick. Returns the inline, the end offset, and
the updated parser state. -/
def parseCodeSpan (st : BacktickState) (s : List Nat) (start : Nat) :
    SpanResult × Nat × BacktickState :=
  let n := nTicks s start
  if n > st.last.length ∨ (st.scanned ∧ st.last.getD (n - 1) 0 < start + n) then
    (SpanResult.plain ((s.drop start).take n), start + n, st)
  else
    match codeScanF (s.length + 1) s (start + n) n st.last st.scanned with
    | (some (estart, endP), last2) =>
      (SpanResult.code (spanText ((s.drop (start + n)).take (estart - (start + n)))),
       endP, { st with last := last2 })
    | (none, last2) =>
      (SpanResult.plain ((s.drop start).take n), start + n,
       { last := last2, scanned := true })

/-- Code span text as described by the amended claim: newlines become
single spaces; if the result begins and ends with a space and is not made
entirely of spaces and tabs, exactly one space is removed from each end. -/
def spanTextAmended (raw : List Nat) : List Nat :=
  let text := raw.map (fun c => if c = bNL then bSpace else c)
  if text.head? = some bSpace ∧ text.getLast? = some bSpace ∧
      ¬ text.all isSpaceTab then
    (text.drop 1).dropLast
  else text

/-- Code span text as described by the original claim: newlines become
single spaces; if the result begins and ends with a space and is not made
entirely of spaces, exactly one space is removed from each end. -/
def spanTextOfClaim (raw : List Nat) : List Nat :=
  let text := raw.map (fun c => if c = bNL then bSpace else c)
  if text.head? = some bSpace ∧ text.getLast? = some bSpace ∧
      ¬ text.all (fun c => c == bSpace) then
    (text.drop 1).dropLast
  else text

theorem trimSpace_eq_nil_iff (l : List Nat) : trimSpace l = [] ↔ l.all isSpaceTab := by
  constructor
  · intro h
    rw [trimSpace, dropTrailing] at h
    have h2 : (l.dropWhile isSpaceTab).reverse.dropWhile isSpaceTab = [] := by
      have := congrArg List.reverse h
      simpa using this
    rw [List.dropWhile_eq_nil_iff] at h2
    have h3 : ∀ x ∈ l.dropWhile isSpaceTab, isSpaceTab x := by
      intro x hx
      exact h2 x (by simpa using hx)
    rw [List.all_eq_true]
    intro x hx
    by_cases hmem : x ∈ l.dropWhile isSpaceTab
    · exact h3 x hmem
    · have : l = l.takeWhile isSpaceTab ++ l.dropWhile isSpaceTab := (List.takeWhile_append_dropWhile _ _).symm
      rw [this] at hx
      rcases List.mem_append.mp hx with h4 | h4
      · exact List.mem_takeWhile_imp h4
      · exact absurd h4 hmem
  · intro h
    have h1 : l.dropWhile isSpaceTab = [] := by
      rw [List.dropWhile_eq_nil_iff]
      intro x hx
      exact List.all_eq_true.mp h x hx
    simp [trimSpace, dropTrailing, h1]

theorem stripCond_iff (text : List Nat) :
    (2 ≤ text.length ∧ text.head? = some bSpace ∧ text.getLast? = some bSpace ∧
      trimSpace text ≠ []) ↔
    (text.head? = some bSpace ∧ text.getLast? = some bSpace ∧ ¬ text.all isSpaceTab) := by
  rw [Ne, trimSpace_eq_nil_iff]
  constructor
  · rintro ⟨h2, hh, hl, ha⟩
    exact ⟨hh, hl, ha⟩
  · rintro ⟨hh, hl, ha⟩
    refine ⟨?_, hh, hl, ha⟩
    cases text with
    | nil => simp at hh
    | cons a rest =>
      cases rest with
      | nil =>
        simp only [List.head?_cons, Option.some.injEq] at hh
        subst hh
        exfalso
        apply ha
        simp [List.all_cons, isSpaceTab]
      | cons b rest2 => simp

theorem spanText_eq_amended (raw : List Nat) : spanText raw = spanTextAmended raw := by
  simp only [spanText, spanTextAmended]
  by_cases h : (raw.map (fun c => if c = bNL then bSpace else c)).head? = some bSpace ∧
      (raw.map (fun c => if c = bNL then bSpace else c)).getLast? = some bSpace ∧
      ¬ (raw.map (fun c => if c = bNL then bSpace else c)).all isSpaceTab
  · rw [if_pos ((stripCond_iff _).mpr h), if_pos h]
  · rw [if_neg (fun hc => h ((stripCond_iff _).mp hc)), if_neg h]

theorem codeScanF_some (fuel : Nat) : ∀ (s : List Nat) (endPos n : Nat) (last : List Nat)
    (scanned : Bool) (estart endP : Nat) (last2 : List Nat),
    codeScanF fuel s endPos n last scanned = (some (estart, endP), last2) →
    endP = estart + n := by
  induction fuel with
  | zero => intro s endPos n last scanned estart endP last2 h; simp [codeScanF] at h
  | succ fuel ih =>
    intro s endPos n last scanned estart endP last2 h
    simp only [codeScanF] at h
    split at h
    · simp at h
    · split at h
      · exact ih s (endPos + 1) n last scanned estart endP last2 h
      · split at h
        · rename_i hm
          simp only [Prod.mk.injEq, Option.some.injEq] at h
          obtain ⟨⟨he1, he2⟩, _⟩ := h
          omega
        · exact ih s _ n _ scanned estart endP last2 h

/-! ## Claim C9 -/

/-- Claim C9, amended. Whenever parseCodeSpan produces a Code inline, its
text is obtained from the enclosed bytes s[start+n : end-n] (n the opening
backtick-run length, end the returned offset) by replacing newlines with
single spaces and then, if the result begins and ends with a space and is
not made entirely of spaces and tabs, removing exactly one space from each
end. The original claim said "not entirely spaces"; the code instead tests
trimSpace, which also strips tabs, so a text like " TAB " is kept intact
(see the counterexample). -/
theorem claim9_code_span_text (st : BacktickState) (s : List Nat) (start : Nat)
    (t : List Nat) (e : Nat) (st2 : BacktickState)
    (h : parseCodeSpan st s start = (SpanResult.code t, e, st2)) :
    t = spanTextAmended ((s.drop (start + nTicks s start)).take
          (e - nTicks s start - (start + nTicks s start))) := by
  rw [parseCodeSpan] at h
  split at h
  · simp at h
  · rename_i hguard
    rcases hscan : codeScanF (s.length + 1) s (start + nTicks s start) (nTicks s start)
        st.last st.scanned with ⟨res, last2⟩
    rw [hscan] at h
    cases res with
    | none => simp at h
    | some pair =>
      rcases pair with ⟨estart, endP⟩
      have hend := codeScanF_some (s.length + 1) s (start + nTicks s start) (nTicks s start)
        st.last st.scanned estart endP last2 hscan
      simp only [Prod.mk.injEq, SpanResult.code.injEq] at h
      obtain ⟨ht, he, _⟩ := h
      subst ht he
      rw [spanText_eq_amended]
      congr 2
      omega

/-- Claim C9 counterexample: scanning the code span in "` TAB `"
(backtick, space, tab, space, backtick) produces the Code text
" TAB " unchanged, but the claim, read literally, requires the
space-stripped "TAB" since the text is not entirely spaces. -/
theorem claim9_counterexample :
    (parseCodeSpan backtickInit [bTick, bSpace, bTab, bSpace, bTick] 0).1 =
      SpanResult.code [bSpace, bTab, bSpace] ∧
    spanTextOfClaim [bSpace, bTab, bSpace] = [bTab] ∧
    ¬ ([bSpace, bTab, bSpace] : List Nat) = [bTab] := by
  refine ⟨by decide, by decide, by decide⟩

/-- Claim C9 witness: the amended theorem applied to the concrete input
"`a TAB b`", whose Code text is "a TAB b". -/
theorem claim9_witness :
    (parseCodeSpan backtickInit [bTick, 97, bTab, 98, bTick] 0) =
      (SpanResult.code [97, bTab, 98], 5,
        { last := (List.replicate 80 0).set 0 4, scanned := false }) ∧
    [97, bTab, 98] = spanTextAmended
      (([bTick, 97, bTab, 98, bTick].drop (0 + nTicks [bTick, 97, bTab, 98, bTick] 0)).take
        (5 - nTicks [bTick, 97, bTab, 98, bTick] 0 -
          (0 + nTicks [bTick, 97, bTab, 98, bTick] 0))) :=
  ⟨by decide,
   claim9_code_span_text backtickInit [bTick, 97, bTab, 98, bTick] 0 [97, bTab, 98] 5
     { last := (List.replicate 80 0).set 0 4, scanned := false } (by decide)⟩


/-! ## Link labels, reference definitions, and link closing (link.go)

Index-based loops follow the Go code, reading bytes with getD (positions
are always checked against the length first, as in the source). The
strings.Replacer entity pairs of mdUnescaper come from a generated table
that is not part of the sources here, so the entity branch is a parameter
ent; the claims below never depend on it. Likewise the Unicode case-fold
pass (golang.org/x/text cases.Fold) applied by normalizeLabel to labels
containing bytes at or above 0x80 is an external library, taken as a
parameter fold. -/

/-- Byte value of the ampersand character. -/
def bAmp : Nat := 38
/-- Byte value of the left parenthesis. -/
def bLParen : Nat := 40
/-- Byte value of the right parenthesis. -/
def bRParen : Nat := 41
/-- Byte value of the less-than sign. -/
def bLT : Nat := 60
/-- Byte value of the greater-than sign. -/
def bGT : Nat := 62
/-- Byte value of the double quote. -/
def bDQuote : Nat := 34
/-- Byte value of the single quote. -/
def bSQuote : Nat := 39

/-- Translation of isPunct (entity2go.go): ASCII Markdown punctuation. -/
def isPunct (c : Nat) : Bool :=
  (33 ≤ c && c ≤ 47) || (58 ≤ c && c ≤ 64) || (91 ≤ c && c ≤ 96) || (123 ≤ c && c ≤ 126)

/-- Slice s[i:j] of a byte string. -/
def slice (s : List Nat) (i j : Nat) : List Nat :=
  (s.drop i).take (j - i)

/-- Loop of skipSpace (entity2go.go): advance past spaces, tabs, newlines. -/
def skipSpaceF : Nat → List Nat → Nat → Nat
  | 0, _, i => i
  | fuel + 1, s, i =>
    if i < s.length ∧ (s.getD i 0 = bSpace ∨ s.getD i 0 = bTab ∨ s.getD i 0 = bNL) then
      skipSpaceF fuel s (i + 1)
    else i

/-- Translation of skipSpace (entity2go.go). -/
def skipSpace (s : List Nat) (i : Nat) : Nat :=
  skipSpaceF (s.length + 1) s i

/-- Byte test used by trimSpaceTabNewline (break.go). -/
def isSpaceTabNL (c : Nat) : Bool :=
  c == bSpace || c == bTab || c == bNL

/-- Translation of trimSpaceTabNewline (break.go). -/
def trimSpaceTabNewline (s : List Nat) : List Nat :=
  dropTrailing isSpaceTabNL (s.dropWhile isSpaceTabNL)

/-- One step of the generic strings.Replacer built in mdUnescaper
(entity2go.go): backslash-escaped ASCII punctuation is unescaped; an
ampersand consults the HTML-entity table, modelled by ent, which returns
the replacement and the remaining input when a known entity starts there. -/
def mdUnescaperReplaceF (ent : List Nat → Option (List Nat × List Nat)) :
    Nat → List Nat → List Nat
  | 0, l => l
  | _ + 1, [] => []
  | fuel + 1, c :: rest =>
    if c = bBackslash then
      match rest with
      | d :: rest2 =>
        if isPunct d then d :: mdUnescaperReplaceF ent fuel rest2
        else c :: mdUnescaperReplaceF ent fuel rest
      | [] => [c]
    else if c = bAmp then
      match ent (c :: rest) with
      | some (repl, remaining) => repl ++ mdUnescaperReplaceF ent fuel remaining
      | none => c :: mdUnescaperReplaceF ent fuel rest
    else c :: mdUnescaperReplaceF ent fuel rest

/-- The mdUnescaper replacement applied to a whole string. -/
def mdUnescaperReplace (ent : List Nat → Option (List Nat × List Nat)) (s : List Nat) :
    List Nat :=
  mdUnescaperReplaceF ent (s.length + 1) s

/-- Translation of mdUnescape (entity2go.go): fast path when the string has
no backslash and no ampersand. -/
def mdUnescape (ent : List Nat → Option (List Nat × List Nat)) (s : List Nat) : List Nat :=
  if ¬ s.contains bBackslash ∧ ¬ s.contains bAmp then s
  else mdUnescaperReplace ent s

/-- Loop of parseLinkLabel (link.go), scanning from j for the closing
bracket; i is the position of the opening bracket. Returns the label and
the index just past it, plus whether the 999-character corner flag was set. -/
def linkLabelF (s : List Nat) (i : Nat) : Nat → Nat → Option (List Nat × Nat) × Bool
  | 0, _ => (none, false)
  | fuel + 1, j =>
    if j < s.length then
      if s.getD j 0 = bRBrack then
        if j - (i + 1) > 999 then (none, true)
        else
          let label := trimSpaceTabNewline (slice s (i + 1) j)
          if label ≠ [] then (some (label, j + 1), false) else (none, false)
      else if s.getD j 0 = bLBrack then (none, false)
      else if s.getD j 0 = bBackslash ∧ j + 1 < s.length then linkLabelF s i fuel (j + 2)
      else linkLabelF s i fuel (j + 1)
    else (none, false)

/-- Translation of parseLinkLabel (link.go). none means no label was found;
the Bool is the corner flag the Go function sets on over-long labels. -/
def parseLinkLabel (s : List Nat) (i : Nat) : Option (List Nat × Nat) × Bool :=
  if i < s.length ∧ s.getD i 0 = bLBrack then linkLabelF s i (s.length + 2) (i + 1)
  else (none, false)

/-- Builder loop of normalizeLabel (link.go): fold whitespace runs into a
single space, lowercase ASCII, and record whether any byte is at or above
0x80. Returns the built bytes and the hi flag. -/
def normLoop : List Nat → Bool → Bool → List Nat × Bool
  | [], _, hi => ([], hi)
  | c :: rest, space, hi =>
    if c = bSpace ∨ c = bTab ∨ c = bNL then normLoop rest true hi
    else
      let c2 := if 65 ≤ c ∧ c ≤ 90 then c + 32 else c
      let hi2 := if c2 ≥ 0x80 then true else hi
      let next := normLoop rest false hi2
      ((if space then [bSpace] else []) ++ c2 :: next.1, next.2)

/-- Translation of normalizeLabel (link.go). Labels containing a bracket
normalize to the empty string; otherwise whitespace is trimmed and folded,
ASCII is lowercased, and when a high byte is present the external Unicode
case-fold fold is applied. -/
def normalizeLabel (fold : List Nat → List Nat) (s : List Nat) : List Nat :=
  if s.contains bLBrack || s.contains bRBrack then []
  else
    let s2 := trimSpaceTabNewline s
    let built := normLoop s2 false false
    if built.2 then fold built.1 else built.1

/-- A link record as stored in the reference map (URL, title, title
delimiter); the Inner field of the Go Link plays no role here. -/
structure LinkRec where
  url : List Nat
  title : List Nat
  titleChar : Nat
  deriving Repr, DecidableEq

/-- The document link map, as an association list in insertion order.
parser.link is lookup; parser.defineLink appends (parseLinkRefDef only
defines a label that is absent, so first definition wins). -/
def linksLookup (links : List (List Nat × LinkRec)) (label : List Nat) : Option LinkRec :=
  (links.find? (fun kv => kv.1 == label)).map (fun kv => kv.2)

/-- Angle-bracket loop of parseLinkDest (link.go), from position j. -/
def linkDestAngleF (ent : List Nat → Option (List Nat × List Nat)) (s : List Nat) (i : Nat) :
    Nat → Nat → Option (List Nat × Nat)
  | 0, _ => none
  | fuel + 1, j =>
    if j ≥ s.length ∨ s.getD j 0 = bNL ∨ s.getD j 0 = bLT then none
    else if s.getD j 0 = bGT then some (mdUnescape ent (slice s (i + 1) j), j + 1)
    else if s.getD j 0 = bBackslash then linkDestAngleF ent s i fuel (j + 2)
    else linkDestAngleF ent s i fuel (j + 1)

/-- Bare-destination loop of parseLinkDest (link.go): stop at an unmatched
closing parenthesis or whitespace, reject a backslash before a space or tab
and parenthesis nesting beyond 32. Returns the end index. -/
def linkDestBareF (s : List Nat) : Nat → Nat → Nat → Option Nat
  | 0, _, j => some j
  | fuel + 1, depth, j =>
    if j < s.length then
      let c := s.getD j 0
      if c = bLParen then
        if depth + 1 > 32 then none else linkDestBareF s fuel (depth + 1) (j + 1)
      else if c = bRParen then
        if depth = 0 then some j else linkDestBareF s fuel (depth - 1) (j + 1)
      else if c = bBackslash then
        if j + 1 < s.length then
          if s.getD (j + 1) 0 = bSpace ∨ s.getD (j + 1) 0 = bTab then none
          else linkDestBareF s fuel depth (j + 2)
        else linkDestBareF s fuel depth (j + 1)
      else if c = bSpace ∨ c = bTab ∨ c = bNL then some j
      else linkDestBareF s fuel depth (j + 1)
    else some j

/-- Translation of parseLinkDest (link.go). -/
def parseLinkDest (ent : List Nat → Option (List Nat × List Nat)) (s : List Nat) (i : Nat) :
    Option (List Nat × Nat) :=
  if i ≥ s.length then none
  else if s.getD i 0 = bLT then linkDestAngleF ent s i (s.length + 2) (i + 1)
  else
    match linkDestBareF s (s.length + 1) 0 i with
    | none => none
    | some j => some (mdUnescape ent (slice s i j), j)

/-- Loop of parseLinkTitle (link.go), scanning for the want byte from j. -/
def linkTitleF (ent : List Nat → Option (List Nat × List Nat)) (s : List Nat)
    (i want : Nat) : Nat → Nat → Option (List Nat × Nat × Nat)
  | 0, _ => none
  | fuel + 1, j =>
    if j < s.length then
      if s.getD j 0 = want then
        some (mdUnescaperReplace ent (slice s (i + 1) j), want, j + 1)
      else if s.getD j 0 = bLParen ∧ want = bRParen then none
      else if s.getD j 0 = bBackslash ∧ j + 1 < s.length then linkTitleF ent s i want fuel (j + 2)
      else linkTitleF ent s i want fuel (j + 1)
    else none

/-- Translation of parseLinkTitle (link.go): title delimited by double
quote, single quote, or parentheses. Returns (title, delimiter, end). -/
def parseLinkTitle (ent : List Nat → Option (List Nat × List Nat)) (s : List Nat) (i : Nat) :
    Option (List Nat × Nat × Nat) :=
  if i < s.length ∧ (s.getD i 0 = bDQuote ∨ s.getD i 0 = bSQuote ∨ s.getD i 0 = bLParen) then
    let want := if s.getD i 0 = bLParen then bRParen else s.getD i 0
    linkTitleF ent s i want (s.length + 2) (i + 1)
  else none

/-- Skip spaces and tabs from index j (the small loops inside
parseLinkRefDef). -/
def skipSpaceTabF : Nat → List Nat → Nat → Nat
  | 0, _, j => j
  | fuel + 1, s, j =>
    if j < s.length ∧ (s.getD j 0 = bSpace ∨ s.getD j 0 = bTab) then
      skipSpaceTabF fuel s (j + 1)
    else j

/-- Skip spaces and tabs with enough fuel. -/
def skipSpaceTab (s : List Nat) (j : Nat) : Nat :=
  skipSpaceTabF (s.length + 1) s j

/-- Title-taking block of parseLinkRefDef (link.go): after the destination
ends at i3, skip spaces and tabs; if anything was skipped or the line ends
here (moved), optionally step over one newline, skip spaces and tabs, and
try a title; the title is taken only when it is followed (after spaces and
tabs) by a newline or the end of input. Returns (title, delimiter, index). -/
def refDefTitleTake (ent : List Nat → Option (List Nat × List Nat)) (s : List Nat)
    (i3 : Nat) : Option (List Nat × Nat × Nat) :=
  let i4 := skipSpaceTab s i3
  let movedNL := i4 ≥ s.length ∨ s.getD i4 0 = bNL
  if i4 ≠ i3 ∨ movedNL then
    match parseLinkTitle ent s
        (skipSpaceTab s (if movedNL ∧ i4 < s.length then i4 + 1 else i4)) with
    | none => none
    | some (t, c, j2) =>
      if skipSpaceTab s j2 ≥ s.length ∨ s.getD (skipSpaceTab s j2) 0 = bNL then
        some (t, c, skipSpaceTab s j2)
      else none
  else none

/-- Final block of parseLinkRefDef (link.go): require the end of the line,
step past the newline, normalize the label and store the definition if the
label is not yet present. cornerFail and cornerOk are the corner flag for
the two outcomes (they differ only by the empty-title corner case). -/
def refDefFinish (fold : List Nat → List Nat) (links : List (List Nat × LinkRec))
    (s label dest title : List Nat) (titleChar : Nat) (cornerFail cornerOk : Bool)
    (i5 : Nat) : Option Nat × List (List Nat × LinkRec) × Bool :=
  if i5 < s.length ∧ s.getD i5 0 ≠ bNL then (none, links, cornerFail)
  else
    (some (if i5 < s.length then i5 + 1 else i5),
     (if (linksLookup links (normalizeLabel fold label)).isNone then
        links ++ [(normalizeLabel fold label,
          { url := dest, title := title, titleChar := titleChar })]
      else links),
     cornerOk)

/-- Translation of parseLinkRefDef (link.go). Returns (some end) when a
definition was parsed (with the updated link map), none otherwise; the Bool
is the corner flag. The entity table and Unicode fold are the external
parameters ent and fold. -/
def parseLinkRefDef (ent : List Nat → Option (List Nat × List Nat))
    (fold : List Nat → List Nat) (links : List (List Nat × LinkRec)) (s : List Nat) :
    Option Nat × List (List Nat × LinkRec) × Bool :=
  match parseLinkLabel s (skipSpace s 0) with
  | (none, corner) => (none, links, corner)
  | (some (label, i1), corner) =>
    if ¬ (i1 < s.length ∧ s.getD i1 0 = bColon) then (none, links, corner)
    else
      match parseLinkDest ent s (skipSpace s (i1 + 1)) with
      | none =>
        (none, links,
         corner || (decide (skipSpace s (i1 + 1) < s.length) &&
           s.getD (skipSpace s (i1 + 1)) 0 == bLT))
      | some (dest, i3) =>
        match refDefTitleTake ent s i3 with
        | some (t, c, j3) =>
          refDefFinish fold links s label dest t c corner
            (corner || (t == ([] : List Nat))) j3
        | none =>
          refDefFinish fold links s label dest [] 0 corner corner (skipSpaceTab s i3)

/-- Collapsed-or-shortcut tail of parseLinkClose (link.go): consume "]"
(and "[]" if present) and look the bracket text up as a label. -/
def linkCloseShortcut (fold : List Nat → List Nat) (links : List (List Nat × LinkRec))
    (s : List Nat) (start openI : Nat) (corner : Bool) : Option (LinkRec × Nat) × Bool :=
  let endP := start + 1
  let endP2 := if slice s endP (endP + 2) = [bLBrack, bRBrack] then endP + 2 else endP
  match linksLookup links (normalizeLabel fold (slice s openI start)) with
  | some link => (some (link, endP2), corner)
  | none => (none, corner)

/-- Translation of parseLinkClose (link.go) for a close bracket at start
whose matching opener recorded input position openI. Returns the link
record and end offset on success; the Bool is the corner flag. In the
full-reference case with a well-formed label that is not in the map, the
Go code returns failure directly instead of falling back to the shortcut
lookup. The successful full-reference case copies URL and Title but not
TitleChar, as in the source. -/
def parseLinkClose (ent : List Nat → Option (List Nat × List Nat))
    (fold : List Nat → List Nat) (links : List (List Nat × LinkRec))
    (s : List Nat) (start openI : Nat) : Option (LinkRec × Nat) × Bool :=
  if start + 1 < s.length then
    if s.getD (start + 1) 0 = bLParen then
      -- Inline link - [Text](Dest Title).
      let i2 := skipSpace s (start + 2)
      let parsed : Option (List Nat × List Nat × Nat × Nat) × Bool :=
        if i2 < s.length ∧ s.getD i2 0 ≠ bRParen then
          match parseLinkDest ent s i2 with
          | none => (none, false)
          | some (dest, i3) =>
            let i4 := skipSpace s i3
            if i4 < s.length ∧ s.getD i4 0 ≠ bRParen then
              match parseLinkTitle ent s i4 with
              | none => (none, true)
              | some (t, c, i5) =>
                ((some (dest, t, c, skipSpace s i5)), t == ([] : List Nat))
            else (some (dest, [], 0, i4), false)
        else (some ([], [], 0, i2), false)
      match parsed with
      | (none, corner) => linkCloseShortcut fold links s start openI corner
      | (some (dest, title, tc, i6), corner) =>
        if i6 < s.length ∧ s.getD i6 0 = bRParen then
          (some ({ url := dest, title := title, titleChar := tc }, i6 + 1), corner)
        else linkCloseShortcut fold links s start openI corner
    else if s.getD (start + 1) 0 = bLBrack then
      -- Full reference link - [Text][Label].
      match parseLinkLabel s (start + 1) with
      | (none, corner) => linkCloseShortcut fold links s start openI corner
      | (some (label, i2), corner) =>
        match linksLookup links (normalizeLabel fold label) with
        | some link =>
          (some ({ url := link.url, title := link.title, titleChar := 0 }, i2), corner)
        | none => (none, corner)
    else linkCloseShortcut fold links s start openI false
  else linkCloseShortcut fold links s start openI false

/-! ## Claim C7 -/

theorem mem_of_mem_dropWhile {p : Nat → Bool} {x : Nat} {l : List Nat}
    (h : x ∈ l.dropWhile p) : x ∈ l :=
  (List.dropWhile_sublist p (l := l)).mem h

theorem mem_of_mem_trimSpaceTabNewline {x : Nat} {l : List Nat}
    (h : x ∈ trimSpaceTabNewline l) : x ∈ l := by
  rw [trimSpaceTabNewline, dropTrailing] at h
  rw [List.mem_reverse] at h
  have h2 := mem_of_mem_dropWhile h
  rw [List.mem_reverse] at h2
  exact mem_of_mem_dropWhile h2

theorem normLoop_mem (l : List Nat) : ∀ space hi x, x ∈ (normLoop l space hi).1 →
    x = bSpace ∨ ∃ c ∈ l, x = (if 65 ≤ c ∧ c ≤ 90 then c + 32 else c) := by
  induction l with
  | nil => intro space hi x h; simp [normLoop] at h
  | cons c rest ih =>
    intro space hi x h
    simp only [normLoop] at h
    split at h
    · rcases ih _ _ _ h with h1 | ⟨d, hd, he⟩
      · exact Or.inl h1
      · exact Or.inr ⟨d, List.mem_cons_of_mem c hd, he⟩
    · rw [List.mem_append] at h
      rcases h with h1 | h1
      · left
        rcases Bool.eq_false_or_eq_true space with hs | hs <;> simp [hs] at h1
        · exact h1
      · rcases List.mem_cons.mp h1 with h2 | h2
        · exact Or.inr ⟨c, List.mem_cons_self c rest, h2⟩
        · rcases ih _ _ _ h2 with h3 | ⟨d, hd, he⟩
          · exact Or.inl h3
          · exact Or.inr ⟨d, List.mem_cons_of_mem c hd, he⟩

/-- Core bracket-freedom of normalizeLabel: when the external fold never
produces brackets, no normalized label contains a bracket byte. -/
theorem normalizeLabel_no_bracket (fold : List Nat → List Nat)
    (hfold : ∀ t, bLBrack ∉ fold t ∧ bRBrack ∉ fold t) (s : List Nat) :
    bLBrack ∉ normalizeLabel fold s ∧ bRBrack ∉ normalizeLabel fold s := by
  simp only [normalizeLabel]
  split
  · simp
  · rename_i hcont
    rw [Bool.or_eq_true, not_or] at hcont
    have hL : bLBrack ∉ s := by
      intro hmem
      exact hcont.1 (by simpa using hmem)
    have hR : bRBrack ∉ s := by
      intro hmem
      exact hcont.2 (by simpa using hmem)
    split
    · exact hfold _
    · constructor
      · intro hmem
        rcases normLoop_mem _ _ _ _ hmem with h1 | ⟨c, hc, he⟩
        · simp [bLBrack, bSpace] at h1
        · have hcs : c ∈ s := mem_of_mem_trimSpaceTabNewline hc
          by_cases h65 : 65 ≤ c ∧ c ≤ 90
          · rw [if_pos h65] at he
            simp only [bLBrack] at he
            omega
          · rw [if_neg h65] at he
            exact hL (he ▸ hcs)
      · intro hmem
        rcases normLoop_mem _ _ _ _ hmem with h1 | ⟨c, hc, he⟩
        · simp [bRBrack, bSpace] at h1
        · have hcs : c ∈ s := mem_of_mem_trimSpaceTabNewline hc
          by_cases h65 : 65 ≤ c ∧ c ≤ 90
          · rw [if_pos h65] at he
            simp only [bRBrack] at he
            omega
          · rw [if_neg h65] at he
            exact hR (he ▸ hcs)

/-- Claim C7, amended. Every key stored in the link-reference map by
parseLinkRefDef contains neither a left nor a right bracket byte (assuming
the external Unicode case fold introduces no brackets); but keys can be
empty: a label containing an escaped bracket parses as a label, normalizes
to the empty string, and is stored under the empty key. -/
theorem claim7_link_map_keys (ent : List Nat → Option (List Nat × List Nat))
    (fold : List Nat → List Nat) (links : List (List Nat × LinkRec)) (s : List Nat)
    (i : Nat) (links2 : List (List Nat × LinkRec)) (c2 : Bool)
    (hfold : ∀ t, bLBrack ∉ fold t ∧ bRBrack ∉ fold t)
    (h : parseLinkRefDef ent fold links s = (some i, links2, c2)) :
    ∀ kv ∈ links2, kv ∈ links ∨ (bLBrack ∉ kv.1 ∧ bRBrack ∉ kv.1) := by
  have finish : ∀ (label dest title : List Nat) (tc : Nat) (cf co : Bool) (i5 : Nat),
      refDefFinish fold links s label dest title tc cf co i5 = (some i, links2, c2) →
      ∀ kv ∈ links2, kv ∈ links ∨ (bLBrack ∉ kv.1 ∧ bRBrack ∉ kv.1) := by
    intro label dest title tc cf co i5 hf kv hkv
    rw [refDefFinish] at hf
    split at hf
    · simp at hf
    · simp only [Prod.mk.injEq, Option.some.injEq] at hf
      obtain ⟨_, hlinks, _⟩ := hf
      subst hlinks
      split at hkv
      · rw [List.mem_append] at hkv
        rcases hkv with h1 | h1
        · exact Or.inl h1
        · simp only [List.mem_singleton] at h1
          subst h1
          exact Or.inr (normalizeLabel_no_bracket fold hfold label)
      · exact Or.inl hkv
  rw [parseLinkRefDef] at h
  split at h
  · simp at h
  · split at h
    · simp at h
    · split at h
      · simp at h
      · split at h
        · exact finish _ _ _ _ _ _ _ h
        · exact finish _ _ _ _ _ _ _ h

/-- Claim C7 counterexample: the link reference definition "[a\[b]: u"
parses successfully (the escaped bracket is skipped by the label scanner),
its label "a\[b" contains a bracket and so normalizes to the empty string,
and the definition is stored in the link map under the empty key; the map
therefore contains an empty key, contradicting the claim that every stored
key is non-empty. -/
theorem claim7_counterexample :
    parseLinkRefDef (fun _ => none) id [] (bs "[a\\[b]: u") =
      (some 9, [(([] : List Nat), { url := bs "u", title := [], titleChar := 0 })], false) ∧
    ¬ (∀ kv ∈ [(([] : List Nat), LinkRec.mk (bs "u") [] 0)], kv.1 ≠ ([] : List Nat)) := by
  refine ⟨by decide, by decide⟩

/-- Claim C7 witness: the amended theorem applied to the definition
"[Foo]: /url", stored under the bracket-free key "foo". -/
theorem claim7_witness :
    ((bs "foo"), LinkRec.mk (bs "/url") [] 0) ∈ ([] : List (List Nat × LinkRec)) ∨
      (bLBrack ∉ bs "foo" ∧ bRBrack ∉ bs "foo") :=
  claim7_link_map_keys (fun _ => none) (fun _ => []) [] (bs "[Foo]: /url") 11
    [((bs "foo"), LinkRec.mk (bs "/url") [] 0)] false
    (fun t => by simp)
    (by decide)
    ((bs "foo"), LinkRec.mk (bs "/url") [] 0)
    (List.mem_singleton.mpr rfl)

/-! ## Claim C10 -/

/-- Claim C10. For a full reference link: when the label after the close
bracket parses as a link label but its normalized form is not in the
link-reference table, parseLinkClose produces no link at all; it does not
fall back to the collapsed/shortcut lookup with the bracket text. -/
theorem claim10_full_ref_no_fallback (ent : List Nat → Option (List Nat × List Nat))
    (fold : List Nat → List Nat) (links : List (List Nat × LinkRec))
    (s : List Nat) (start openI : Nat) (label : List Nat) (i2 : Nat) (corner : Bool)
    (hlen : start + 1 < s.length)
    (hbrack : s.getD (start + 1) 0 = bLBrack)
    (hlabel : parseLinkLabel s (start + 1) = (some (label, i2), corner))
    (hmiss : linksLookup links (normalizeLabel fold label) = none) :
    (parseLinkClose ent fold links s start openI).1 = none := by
  rw [parseLinkClose, if_pos hlen]
  have hne : ¬ s.getD (start + 1) 0 = bLParen := by
    rw [hbrack]
    decide
  rw [if_neg hne, if_pos hbrack, hlabel]
  simp only [hmiss]

/-- Claim C10 witness: the theorem applied to the text "][x]" with an empty
link table: the label "x" parses but is undefined, and parseLinkClose
returns no link. -/
theorem claim10_witness :
    (parseLinkClose (fun _ => none) id [] (bs "][x]") 0 0).1 = none :=
  claim10_full_ref_no_fallback (fun _ => none) id [] (bs "][x]") 0 0 (bs "x") 4 false
    (by decide) (by decide) (by decide) (by decide)


/-! ## Inline nodes and emphasis resolution (inline.go: parser.emph)

The Inline interface is modelled as one inductive type. The transient
parse-stack variants openPlain and emphPlain are the constructors openP and
emphP; emphPlain.i (the node position in the output list dst) is the pos
field, and stacks store dst indices where the Go code stores pointers.
Go appends stack entries at the end and reads the last; here the head of
each stack list is the top. -/

/-- Byte value of the asterisk character. -/
def bStar : Nat := 42
/-- Byte value of the underscore character. -/
def bUnder : Nat := 95
/-- Byte value of the tilde character. -/
def bTilde : Nat := 126

/-- Inline nodes (inline.go). Leaf inlines irrelevant to emphasis carry
only their text; Link and Image carry their inner list and target. -/
inductive Inl where
  | plain (text : List Nat)
  | escaped (text : List Nat)
  | codeSpan (text : List Nat)
  | htmlTag (text : List Nat)
  | autoLink (text url : List Nat)
  | emoji (name text : List Nat)
  | hardBreak
  | softBreak
  | task (checked : Bool)
  | footnoteLink (label : List Nat)
  | openP (text : List Nat) (pos : Nat)
  | emphP (text : List Nat) (canOpen canClose : Bool) (pos n : Nat)
  | emph (marker : List Nat) (inner : List Inl)
  | strong (marker : List Nat) (inner : List Inl)
  | del (marker : List Nat) (inner : List Inl)
  | link (inner : List Inl) (url title : List Nat) (titleChar : Nat)
  | image (inner : List Inl) (url title : List Nat) (titleChar : Nat)
  deriving Repr

/-- Text of a Plain or emphPlain node (the node kinds merged by mergePlain). -/
def plainText? : Inl → Option (List Nat)
  | .plain t => some t
  | .emphP t _ _ _ _ => some t
  | _ => none

mutual
/-- Translation of mergePlain (inline.go): emphPlain nodes become Plain and
each run of Plain nodes merges into one Plain with the concatenated text. -/
def mergePlain : List Inl → List Inl
  | [] => []
  | x :: rest =>
    match plainText? x with
    | some t => mergeRun t rest
    | none => x :: mergePlain rest

/-- Run-collection part of mergePlain: t is the text accumulated so far. -/
def mergeRun (t : List Nat) : List Inl → List Inl
  | [] => [.plain t]
  | x :: rest =>
    match plainText? x with
    | some t2 => mergeRun (t ++ t2) rest
    | none => .plain t :: x :: mergePlain rest
end

/-- State of parser.emph (inline.go): the output list dst and the sixteen
delimiter stacks (0-1 strike by length, 2 single quote, 3 double quote,
4-9 star, 10-15 underscore), each a list of dst indices, top first. -/
structure EmphState where
  dst : List Inl
  stks : List (List Nat)

/-- Read one of the sixteen stacks. -/
def stackGet (st : EmphState) (si : Nat) : List Nat :=
  st.stks.getD si []

/-- Replace one of the sixteen stacks. -/
def stackSet (st : EmphState) (si : Nat) (v : List Nat) : EmphState :=
  { st with stks := st.stks.set si v }

/-- Node of dst at index j. -/
def dstNode (st : EmphState) (j : Nat) : Inl :=
  st.dst.getD j (.plain [])

/-- Replace the text of an emphPlain node (the dst[start.i] mutations of
the quote cases; on any other node the Go type assertion would panic,
which cannot happen for stack entries). -/
def setEmphText : Inl → List Nat → Inl
  | .emphP _ co cc pos n, t => .emphP t co cc pos n
  | x, _ => x

/-- The stack index chosen in the EmitPlain block of parser.emph
(inline.go): strike by run length, fixed slots for quotes, and for star
and underscore six slots keyed by (canClose, n mod 3). none corresponds
to the Go value -1, never reached for scanner-produced nodes. -/
def emphStackIndex (text : List Nat) (canClose : Bool) (n : Nat) : Option Nat :=
  match text.head? with
  | none => none
  | some c =>
    if c = bTilde then some (text.length - 1)
    else if c = bSQuote then some 2
    else if c = bDQuote then some 3
    else if c = bStar ∨ c = bUnder then
      some ((if c = bUnder then 10 else 4) + (if canClose then 3 else 0) + n % 3)
    else none

/-- The EmitPlain block of parser.emph (inline.go): push the node (still an
emphPlain when it can open, demoted to Plain otherwise), record it on its
stack, and rewrite a leftover quote delimiter to its curly form (right
single quote; for a double quote, right if it can close and left
otherwise). -/
def emitPlain (st : EmphState) (text : List Nat) (canOpen canClose : Bool) (n : Nat) :
    EmphState :=
  let text2 :=
    if text = [bSQuote] then bs "’"
    else if text = [bDQuote] then (if canClose then bs "”" else bs "“")
    else text
  if canOpen then
    let j := st.dst.length
    let st1 := { st with dst := st.dst ++ [.emphP text2 canOpen canClose j n] }
    match emphStackIndex text canClose n with
    | some k => stackSet st1 k (j :: stackGet st1 k)
    | none => st1
  else
    { st with dst := st.dst ++ [.plain text2] }

/-- CommonMark rule 9 test from parser.emph (inline.go): when one delimiter
run can both open and close, the length sum must not be a multiple of 3
unless both lengths are. -/
def allowRule9 (pCanOpen : Bool) (pN : Nat) (startCanClose : Bool) (startN : Nat) : Bool :=
  (!pCanOpen && !startCanClose) || (pN + startN) % 3 != 0 || pN % 3 == 0

/-- Opener search for star and underscore closers (inline.go): of the six
stacks starting at si, take the acceptable top entry appearing latest in
dst. -/
def emphFindOpener (st : EmphState) (si : Nat) (pCanOpen : Bool) (pN : Nat) : Option Nat :=
  (List.range 6).foldl
    (fun best k =>
      match (stackGet st (si + k)).head? with
      | none => best
      | some j =>
        match dstNode st j with
        | .emphP _ _ scc _ sn =>
          if allowRule9 pCanOpen pN scc sn &&
              (match best with | none => true | some jb => decide (j > jb)) then some j
          else best
        | _ => best)
    none

/-- Pop entries referring to removed dst nodes from every stack (the
cleanup loop after a match in parser.emph). -/
def pruneStacks (sts : List (List Nat)) (len : Nat) : List (List Nat) :=
  sts.map (fun stk => stk.dropWhile (fun idx => decide (idx ≥ len)))

/-- The match block of parser.emph (inline.go): the closer with text ct
matches the opener at dst index j. Chop 2 from each side when both have at
least 2 delimiters (Strong, or Del for a tilde), otherwise 1 (Emph, or Del
for a tilde); wrap the nodes above j into the new node, shorten or remove
the opener, prune the stacks, push the new node, and return the state with
the rest of the closer text. -/
def emphMatch (st : EmphState) (ct : List Nat) (c : Nat) (j : Nat) :
    EmphState × List Nat :=
  match dstNode st j with
  | .emphP stext sco scc spos sn =>
    let d := if 2 ≤ ct.length ∧ 2 ≤ stext.length then 2 else 1
    let inner := mergePlain (st.dst.drop (j + 1))
    let marker := ct.take d
    let x : Inl :=
      if c = bTilde then .del marker inner
      else if d = 2 then .strong marker inner
      else .emph marker inner
    let stext2 := stext.take (stext.length - d)
    let dst2 :=
      if stext2 = [] then st.dst.take j
      else (st.dst.set j (.emphP stext2 sco scc spos sn)).take (j + 1)
    let stks2 := pruneStacks st.stks dst2.length
    ({ dst := dst2 ++ [x], stks := stks2 }, ct.drop d)
  | _ => (st, [])

/-- The canClose branch of parser.emph (inline.go), iterating the PText
loop: quote closers match their fixed stacks and rewrite to curly quotes;
tilde closers look at the strike stack for their length; star and
underscore closers search their six stacks; with no opener the closer is
emitted as plain. Fuel bounds the PText iterations (each consumes at least
one delimiter from ct). -/
def processCloseF : Nat → EmphState → List Nat → Bool → Nat → EmphState
  | 0, st, _, _, _ => st
  | fuel + 1, st, ct, canOpen, n =>
    match ct.head? with
    | none => st
    | some c =>
      if c = bDQuote then
        match stackGet st 3 with
        | [] => emitPlain st ct canOpen true n
        | j :: stk2 =>
          let st1 := stackSet st 3 stk2
          let st2 := { st1 with dst := st1.dst.set j (setEmphText (dstNode st1 j) (bs "“")) }
          { st2 with dst := st2.dst ++ [.plain (bs "”")] }
      else if c = bSQuote then
        match stackGet st 2 with
        | [] => emitPlain st ct canOpen true n
        | j :: stk2 =>
          let st1 := stackSet st 2 stk2
          let st2 := { st1 with dst := st1.dst.set j (setEmphText (dstNode st1 j) (bs "‘")) }
          { st2 with dst := st2.dst ++ [.plain (bs "’")] }
      else
        let opener : Option Nat :=
          if c = bTilde then (stackGet st (ct.length - 1)).head?
          else if c = bStar ∨ c = bUnder then
            emphFindOpener st (if c = bUnder then 10 else 4) canOpen n
          else none
        match opener with
        | none => emitPlain st ct canOpen true n
        | some j =>
          match emphMatch st ct c j with
          | (st2, ct2) =>
            if ct2 = [] then st2
            else processCloseF fuel st2 ct2 canOpen n

/-- Main loop of parser.emph (inline.go): emphPlain closers are matched,
other emphPlains are emitted, leftover open brackets demote to plain text,
and everything else passes through. -/
def emphLoop : EmphState → List Inl → EmphState
  | st, [] => st
  | st, x :: rest =>
    match x with
    | .emphP t co cc _ n =>
      if cc then emphLoop (processCloseF (t.length + 1) st t co n) rest
      else emphLoop (emitPlain st t co cc n) rest
    | .openP t _ => emphLoop { st with dst := st.dst ++ [.plain t] } rest
    | _ => emphLoop { st with dst := st.dst ++ [x] } rest

/-- Translation of parser.emph (inline.go) applied to a source list with
the empty destination its callers pass: run the loop with sixteen empty
stacks and merge adjacent plain nodes at the end. -/
def emphRun (src : List Inl) : List Inl :=
  mergePlain (emphLoop { dst := [], stks := List.replicate 16 [] } src).dst


/-! ## Emphasis delimiter scanning (inline.go: parseEmph) with UTF-8 rune
decoding (Go unicode/utf8). The Unicode punctuation and symbol category
tables for code points at or above 0x80 live in the Go standard library,
outside this repository; they are the parameter hiPunct. The Zs
(space-separator) category is small and fixed and is embedded directly. -/

/-- Low bound for the second byte of a UTF-8 sequence, by first byte
(Go utf8 acceptRanges). -/
def contLo (b0 : Nat) : Nat :=
  if b0 = 0xE0 then 0xA0 else if b0 = 0xF0 then 0x90 else 0x80

/-- High bound for the second byte of a UTF-8 sequence, by first byte
(Go utf8 acceptRanges). -/
def contHi (b0 : Nat) : Nat :=
  if b0 = 0xED then 0x9F else if b0 = 0xF4 then 0x8F else 0xBF

/-- Translation of utf8.DecodeRuneInString: the first rune and its byte
size; invalid or truncated input yields (replacement character, 1), empty
input (replacement character, 0). -/
def utf8DecodeRune : List Nat → Nat × Nat
  | [] => (0xFFFD, 0)
  | b0 :: rest =>
    if b0 < 0x80 then (b0, 1)
    else if 0xC2 ≤ b0 ∧ b0 ≤ 0xDF then
      match rest with
      | b1 :: _ =>
        if contLo b0 ≤ b1 ∧ b1 ≤ contHi b0 then ((b0 % 0x20) * 64 + b1 % 64, 2)
        else (0xFFFD, 1)
      | [] => (0xFFFD, 1)
    else if 0xE0 ≤ b0 ∧ b0 ≤ 0xEF then
      match rest with
      | b1 :: b2 :: _ =>
        if (contLo b0 ≤ b1 ∧ b1 ≤ contHi b0) ∧ (0x80 ≤ b2 ∧ b2 ≤ 0xBF) then
          ((b0 % 0x10) * 4096 + (b1 % 64) * 64 + b2 % 64, 3)
        else (0xFFFD, 1)
      | _ => (0xFFFD, 1)
    else if 0xF0 ≤ b0 ∧ b0 ≤ 0xF4 then
      match rest with
      | b1 :: b2 :: b3 :: _ =>
        if (contLo b0 ≤ b1 ∧ b1 ≤ contHi b0) ∧ (0x80 ≤ b2 ∧ b2 ≤ 0xBF) ∧
            (0x80 ≤ b3 ∧ b3 ≤ 0xBF) then
          ((b0 % 8) * 262144 + (b1 % 64) * 4096 + (b2 % 64) * 64 + b3 % 64, 4)
        else (0xFFFD, 1)
      | _ => (0xFFFD, 1)
    else (0xFFFD, 1)

/-- Whether a byte starts a UTF-8 sequence (Go utf8.RuneStart). -/
def runeStart (b : Nat) : Bool :=
  !(0x80 ≤ b && b ≤ 0xBF)

/-- Backward scan of utf8.DecodeLastRuneInString: from idx down to lim,
the first position holding a rune-start byte. -/
def findStartF : Nat → List Nat → Nat → Nat → Option Nat
  | 0, _, _, _ => none
  | fuel + 1, l, idx, lim =>
    if idx < lim then none
    else if runeStart (l.getD idx 0) then some idx
    else if idx = 0 then none
    else findStartF fuel l (idx - 1) lim

/-- Translation of utf8.DecodeLastRuneInString: the last rune of l and its
byte size. -/
def utf8DecodeLastRune (l : List Nat) : Nat × Nat :=
  match l.getLast? with
  | none => (0xFFFD, 0)
  | some last =>
    if last < 0x80 then (last, 1)
    else
      let n := l.length
      let lim := n - 4
      let start :=
        match findStartF (n + 1) l (n - 2) lim with
        | some i => i
        | none => if lim = 0 then 0 else lim - 1
      let rs := utf8DecodeRune (l.drop start)
      if start + rs.2 = n then rs else (0xFFFD, 1)

/-- The Unicode Zs (space separator) code points at or above 0x80
(Go unicode.Zs). -/
def zsHigh : List Nat :=
  [0xA0, 0x1680, 0x2000, 0x2001, 0x2002, 0x2003, 0x2004, 0x2005, 0x2006,
   0x2007, 0x2008, 0x2009, 0x200A, 0x202F, 0x205F, 0x3000]

/-- Translation of isUnicodeSpace (entity2go.go) on a decoded rune. -/
def isUnicodeSpaceR (r : Nat) : Bool :=
  if r < 0x80 then r == 32 || r == 9 || r == 12 || r == 10
  else zsHigh.contains r

/-- Translation of isUnicodePunct (entity2go.go) on a decoded rune; the
category tables for high code points are the external parameter hiPunct. -/
def isUnicodePunctR (hiPunct : Nat → Bool) (r : Nat) : Bool :=
  if r < 0x80 then isPunct r else hiPunct r

/-- Translation of parseEmph (inline.go): scan the delimiter run, flag the
tilde corner cases, turn over-long tilde runs into plain text, classify
can-open and can-close from the flanking rules using the runes adjacent to
the run, and produce the emphPlain node. Returns (node, end, corner). -/
def parseEmph (hiPunct : Nat → Bool) (s : List Nat) (start : Nat) : Inl × Nat × Bool :=
  let c := s.getD start 0
  let endP :=
    if c = bStar ∨ c = bTilde ∨ c = bUnder then
      start + 1 + ((s.drop (start + 1)).takeWhile (fun x => x == c)).length
    else start + 1
  let corner := c = bTilde ∧ endP - start ≠ 2
  if c = bTilde ∧ endP - start > 2 then
    (.plain (slice s start endP), endP, corner)
  else
    let before := if start > 0 then (utf8DecodeLastRune (s.take start)).1 else 32
    let after := if endP < s.length then (utf8DecodeRune (s.drop endP)).1 else 32
    let leftFlank := !isUnicodeSpaceR after &&
      (!isUnicodePunctR hiPunct after || isUnicodeSpaceR before || isUnicodePunctR hiPunct before)
    let rightFlank := !isUnicodeSpaceR before &&
      (!isUnicodePunctR hiPunct before || isUnicodeSpaceR after || isUnicodePunctR hiPunct after)
    let canOpen :=
      if c = bSQuote ∨ c = bDQuote then
        leftFlank && !rightFlank && !(before == bRBrack) && !(before == bRParen)
      else if c = bStar ∨ c = bTilde then leftFlank
      else if c = bUnder then leftFlank && (!rightFlank || isUnicodePunctR hiPunct before)
      else false
    let canClose :=
      if c = bSQuote ∨ c = bDQuote then rightFlank
      else if c = bStar ∨ c = bTilde then rightFlank
      else if c = bUnder then rightFlank && (!leftFlank || isUnicodePunctR hiPunct after)
      else false
    (.emphP (slice s start endP) canOpen canClose 0 (endP - start), endP, corner)


theorem getLast?_append_singleton (l : List Inl) (a : Inl) :
    (l ++ [a]).getLast? = some a := by
  induction l with
  | nil => rfl
  | cons x rest ih =>
    cases hra : rest ++ [a] with
    | nil => cases rest <;> simp at hra
    | cons y ys =>
      rw [List.cons_append, hra, List.getLast?_cons_cons, ← hra]
      exact ih

/-! ## Claim C4 -/

/-- Claim C4, amended. When an opener and closer match during emphasis
resolution: if both runs have at least 2 remaining delimiters, a Strong
(or Del for a tilde) is pushed, consuming 2 from each side; otherwise a
node consuming 1 from each side is pushed, which is an Emph for star and
underscore but a Del for a tilde (the original claim wrongly said only
runs of exactly 2 are meaningful for the tilde: a single tilde also forms
a Del). Tilde runs longer than 2 are turned into plain text by the
scanner and never reach matching. -/
theorem claim4_emph_match (st : EmphState) (ct : List Nat) (c j : Nat)
    (stext : List Nat) (sco scc : Bool) (spos sn : Nat)
    (hnode : dstNode st j = .emphP stext sco scc spos sn) :
    ((2 ≤ ct.length ∧ 2 ≤ stext.length →
      (emphMatch st ct c j).1.dst.getLast? =
        some (if c = bTilde then Inl.del (ct.take 2) (mergePlain (st.dst.drop (j + 1)))
              else Inl.strong (ct.take 2) (mergePlain (st.dst.drop (j + 1)))) ∧
      (emphMatch st ct c j).2 = ct.drop 2) ∧
    (¬ (2 ≤ ct.length ∧ 2 ≤ stext.length) →
      (emphMatch st ct c j).1.dst.getLast? =
        some (if c = bTilde then Inl.del (ct.take 1) (mergePlain (st.dst.drop (j + 1)))
              else Inl.emph (ct.take 1) (mergePlain (st.dst.drop (j + 1)))) ∧
      (emphMatch st ct c j).2 = ct.drop 1)) ∧
    (∀ (hiPunct : Nat → Bool) (s : List Nat) (start : Nat),
      s.getD start 0 = bTilde →
      2 < 1 + ((s.drop (start + 1)).takeWhile (fun x => x == bTilde)).length →
      (parseEmph hiPunct s start).1 =
        .plain (slice s start
          (start + 1 + ((s.drop (start + 1)).takeWhile (fun x => x == bTilde)).length))) := by
  constructor
  · constructor
    · intro h2
      rw [emphMatch, hnode]
      simp only [if_pos h2]
      constructor
      · by_cases hc : c = bTilde
        · simp only [if_pos hc]
          split <;> rw [getLast?_append_singleton]
        · simp only [if_neg hc, if_pos rfl, if_true]
          split <;> rw [getLast?_append_singleton]
      · trivial
    · intro h2
      rw [emphMatch, hnode]
      simp only [if_neg h2]
      constructor
      · by_cases hc : c = bTilde
        · simp only [if_pos hc]
          split <;> rw [getLast?_append_singleton]
        · have h1 : ¬ (1 = 2) := by decide
          simp only [if_neg hc, if_neg h1]
          split <;> rw [getLast?_append_singleton]
      · trivial
  · intro hiPunct s start hc hrun
    simp only [parseEmph, hc]
    rw [if_pos (Or.inr (Or.inl trivial))]
    rw [if_pos (And.intro trivial (by omega))]

/-- Claim C4 counterexample: with Strikethrough enabled, the input "~x~"
scans as two single-tilde delimiter runs (each of length 1, not 2), and
emphasis resolution forms a Del from them, so runs of length other than 2
do form Del nodes; moreover the single-delimiter match produces a Del, not
an Emph. -/
theorem claim4_counterexample :
    parseEmph (fun _ => false) (bs "~x~") 0 = (.emphP [bTilde] true false 0 1, 1, true) ∧
    parseEmph (fun _ => false) (bs "~x~") 2 = (.emphP [bTilde] false true 0 1, 3, true) ∧
    emphRun [.emphP [bTilde] true false 0 1, .plain [120], .emphP [bTilde] false true 0 1] =
      [.del [bTilde] [.plain [120]]] ∧
    ([bTilde] : List Nat).length ≠ 2 :=
  ⟨rfl, rfl, rfl, by decide⟩

/-- Claim C4 witness: the amended theorem applied to a double-tilde closer
matching a double-tilde opener (forming Strong-shaped Del, consuming 2) and
to a single-star closer matching a single-star opener (forming Emph,
consuming 1). -/
theorem claim4_witness :
    ((emphMatch (EmphState.mk [Inl.emphP [bTilde, bTilde] true false 0 2, Inl.plain [120]]
        (List.replicate 16 [])) [bTilde, bTilde] bTilde 0).1.dst.getLast? =
      some (Inl.del [bTilde, bTilde] [Inl.plain [120]]) ∧
     (emphMatch (EmphState.mk [Inl.emphP [bTilde, bTilde] true false 0 2, Inl.plain [120]]
        (List.replicate 16 [])) [bTilde, bTilde] bTilde 0).2 = []) ∧
    ((emphMatch (EmphState.mk [Inl.emphP [bStar] true false 0 1, Inl.plain [120]]
        (List.replicate 16 [])) [bStar] bStar 0).1.dst.getLast? =
      some (Inl.emph [bStar] [Inl.plain [120]]) ∧
     (emphMatch (EmphState.mk [Inl.emphP [bStar] true false 0 1, Inl.plain [120]]
        (List.replicate 16 [])) [bStar] bStar 0).2 = []) := by
  constructor
  · have h := (claim4_emph_match
      (EmphState.mk [Inl.emphP [bTilde, bTilde] true false 0 2, Inl.plain [120]]
        (List.replicate 16 [])) [bTilde, bTilde] bTilde 0
      [bTilde, bTilde] true false 0 2 rfl).1.1 (by constructor <;> decide)
    rcases h with ⟨h1, h2⟩
    refine ⟨?_, h2⟩
    rw [h1]
    rfl
  · have h := (claim4_emph_match
      (EmphState.mk [Inl.emphP [bStar] true false 0 1, Inl.plain [120]]
        (List.replicate 16 [])) [bStar] bStar 0
      [bStar] true false 0 1 rfl).1.2 (by decide)
    rcases h with ⟨h1, h2⟩
    refine ⟨?_, h2⟩
    rw [h1]
    rfl

/-! ## Claim C5 -/

/-- Claim C5, amended. With SmartQuote enabled, emphasis resolution
rewrites quote delimiters to curly quotes as follows: an unmatched single
quote always becomes the right quote; an unmatched double quote becomes
the right quote when it can close and the left quote otherwise (so an
unmatched opening double quote is rewritten to the left-curly form, not
the right-curly form the claim states); and a matched pair becomes left
and right quotes. -/
theorem claim5_smart_quote (st : EmphState) (co cc : Bool) (n : Nat) :
    ((emitPlain st [bSQuote] co cc n).dst.getLast?.bind plainText? = some (bs "’")) ∧
    ((emitPlain st [bDQuote] co cc n).dst.getLast?.bind plainText? =
      some (if cc then bs "”" else bs "“")) ∧
    (∀ j stk2, stackGet st 3 = j :: stk2 →
      (processCloseF 2 st [bDQuote] co n).dst =
        (st.dst.set j (setEmphText (dstNode st j) (bs "“"))) ++ [.plain (bs "”")]) ∧
    (∀ j stk2, stackGet st 2 = j :: stk2 →
      (processCloseF 2 st [bSQuote] co n).dst =
        (st.dst.set j (setEmphText (dstNode st j) (bs "‘"))) ++ [.plain (bs "’")]) := by
  refine ⟨?_, ?_, ?_, ?_⟩
  · rw [emitPlain]
    simp only [bSQuote, bDQuote]
    norm_num
    cases co
    · simp [getLast?_append_singleton, plainText?]
    · simp only [if_true]
      split <;> simp [getLast?_append_singleton, plainText?, stackSet, stackGet]
  · rw [emitPlain]
    simp only [bSQuote, bDQuote]
    norm_num
    cases co
    · simp [getLast?_append_singleton, plainText?]
    · simp only [if_true]
      split <;> simp [getLast?_append_singleton, plainText?, stackSet, stackGet]
  · intro j stk2 hstk
    rw [processCloseF]
    simp only [List.head?_cons, bSQuote, bDQuote]
    norm_num
    rw [hstk]
    rfl
  · intro j stk2 hstk
    rw [processCloseF]
    simp only [List.head?_cons, bSQuote, bDQuote]
    norm_num
    rw [hstk]
    rfl

/-- Claim C5 counterexample: with SmartQuote enabled, the input consisting
of a double quote before "a" scans as a can-open, cannot-close double
quote delimiter that stays unmatched, and emphasis resolution rewrites it
to the left-curly quote, not the right-curly quote stated by the claim. -/
theorem claim5_counterexample :
    parseEmph (fun _ => false) (bs "\"a") 0 = (.emphP [bDQuote] true false 0 1, 1, false) ∧
    emphRun [.emphP [bDQuote] true false 0 1, .plain [97]] = [.plain (bs "“a")] ∧
    ¬ (bs "“a" = bs "”a") :=
  ⟨rfl, rfl, by decide⟩

/-- Claim C5 witness: the amended theorem applied to a state whose
double-quote stack holds the opener at index 0. -/
theorem claim5_witness :
    ((emitPlain (EmphState.mk [] (List.replicate 16 []))
        [bSQuote] false false 0).dst.getLast?.bind plainText? = some (bs "’")) ∧
    ((processCloseF 2
        (EmphState.mk [Inl.emphP (bs "”") true true 0 1]
          ((List.replicate 16 []).set 3 [0])) [bDQuote] false 1).dst =
      ([Inl.emphP (bs "”") true true 0 1].set 0
        (setEmphText (dstNode (EmphState.mk [Inl.emphP (bs "”") true true 0 1]
          ((List.replicate 16 []).set 3 [0])) 0) (bs "“"))) ++ [Inl.plain (bs "”")]) :=
  ⟨(claim5_smart_quote (EmphState.mk [] (List.replicate 16 [])) false false 0).1,
   (claim5_smart_quote (EmphState.mk [Inl.emphP (bs "”") true true 0 1]
      ((List.replicate 16 []).set 3 [0])) false true 1).2.2.1 0 [] rfl⟩


/-! ## No links inside links (inline.go: parser.inline, link.go: autoLinkText)

hasLinkDeep finds a Link node at any nesting depth; linkOK states that no
Link contains another Link at any depth (even through an Image). -/

/-- Byte value of the exclamation mark. -/
def bBang : Nat := 33

mutual
/-- Whether a Link occurs at any depth in the inline (including itself). -/
def hasLinkDeep : Inl → Bool
  | .link _ _ _ _ => true
  | .image inner _ _ _ => hasLinkDeepL inner
  | .emph _ inner => hasLinkDeepL inner
  | .strong _ inner => hasLinkDeepL inner
  | .del _ inner => hasLinkDeepL inner
  | _ => false

/-- Whether a Link occurs at any depth in the list. -/
def hasLinkDeepL : List Inl → Bool
  | [] => false
  | x :: xs => hasLinkDeep x || hasLinkDeepL xs
end

mutual
/-- No Link inside a Link at any depth (the claimed invariant, applied at
this node and below). -/
def linkOK : Inl → Bool
  | .link inner _ _ _ => !hasLinkDeepL inner && linkOKL inner
  | .image inner _ _ _ => linkOKL inner
  | .emph _ inner => linkOKL inner
  | .strong _ inner => linkOKL inner
  | .del _ inner => linkOKL inner
  | _ => true

/-- linkOK for every node of the list. -/
def linkOKL : List Inl → Bool
  | [] => true
  | x :: xs => linkOK x && linkOKL xs
end

theorem hasLinkDeepL_eq_false_iff (l : List Inl) :
    hasLinkDeepL l = false ↔ ∀ x ∈ l, hasLinkDeep x = false := by
  induction l with
  | nil => simp [hasLinkDeepL]
  | cons x xs ih =>
    simp [hasLinkDeepL, ih]

theorem linkOKL_eq_true_iff (l : List Inl) :
    linkOKL l = true ↔ ∀ x ∈ l, linkOK x = true := by
  induction l with
  | nil => simp [linkOKL]
  | cons x xs ih =>
    simp [linkOKL, ih]

theorem hasLinkDeepL_append (l1 l2 : List Inl) :
    hasLinkDeepL (l1 ++ l2) = (hasLinkDeepL l1 || hasLinkDeepL l2) := by
  induction l1 with
  | nil => simp [hasLinkDeepL]
  | cons x xs ih => simp [hasLinkDeepL, ih, Bool.or_assoc]

theorem linkOKL_append (l1 l2 : List Inl) :
    linkOKL (l1 ++ l2) = (linkOKL l1 && linkOKL l2) := by
  induction l1 with
  | nil => simp [linkOKL]
  | cons x xs ih => simp [linkOKL, ih, Bool.and_assoc]

mutual
/-- A node with no Link at any depth trivially satisfies linkOK. -/
theorem linkOK_of_not_hasLinkDeep : ∀ (x : Inl), hasLinkDeep x = false → linkOK x = true
  | .link _ _ _ _, h => by simp [hasLinkDeep] at h
  | .image inner _ _ _, h => by
    rw [hasLinkDeep] at h
    rw [linkOK]
    exact linkOKL_of_not_hasLinkDeepL inner h
  | .emph _ inner, h => by
    rw [hasLinkDeep] at h
    rw [linkOK]
    exact linkOKL_of_not_hasLinkDeepL inner h
  | .strong _ inner, h => by
    rw [hasLinkDeep] at h
    rw [linkOK]
    exact linkOKL_of_not_hasLinkDeepL inner h
  | .del _ inner, h => by
    rw [hasLinkDeep] at h
    rw [linkOK]
    exact linkOKL_of_not_hasLinkDeepL inner h
  | .plain _, _ => rfl
  | .escaped _, _ => rfl
  | .codeSpan _, _ => rfl
  | .htmlTag _, _ => rfl
  | .autoLink _ _, _ => rfl
  | .emoji _ _, _ => rfl
  | .hardBreak, _ => rfl
  | .softBreak, _ => rfl
  | .task _, _ => rfl
  | .footnoteLink _, _ => rfl
  | .openP _ _, _ => rfl
  | .emphP _ _ _ _ _, _ => rfl

/-- A list with no Link at any depth satisfies linkOKL. -/
theorem linkOKL_of_not_hasLinkDeepL : ∀ (l : List Inl),
    hasLinkDeepL l = false → linkOKL l = true
  | [], _ => rfl
  | x :: xs, h => by
    rw [hasLinkDeepL, Bool.or_eq_false_iff] at h
    rw [linkOKL, Bool.and_eq_true]
    exact ⟨linkOK_of_not_hasLinkDeep x h.1, linkOKL_of_not_hasLinkDeepL xs h.2⟩
end

/-- Nodes merged by mergePlain are Plain or emphPlain, which carry no links
and are linkOK. -/
theorem plainText?_good (x : Inl) (t : List Nat) (h : plainText? x = some t) :
    hasLinkDeep x = false ∧ linkOK x = true := by
  cases x <;> simp [plainText?] at h <;> simp [hasLinkDeep, linkOK]

mutual
theorem mergePlain_all {P : Inl → Bool}
    (hplain : ∀ t, P (.plain t) = true) :
    ∀ (l : List Inl), (∀ x ∈ l, P x = true) → ∀ y ∈ mergePlain l, P y = true
  | [], _, y, hy => by simp [mergePlain] at hy
  | x :: rest, h, y, hy => by
    rw [mergePlain] at hy
    rcases hpt : plainText? x with _ | t
    · rw [hpt] at hy
      rcases List.mem_cons.mp hy with h1 | h1
      · exact h1 ▸ h x (List.mem_cons_self x rest)
      · exact mergePlain_all hplain rest (fun z hz => h z (List.mem_cons_of_mem x hz)) y h1
    · rw [hpt] at hy
      exact mergeRun_all hplain t rest (fun z hz => h z (List.mem_cons_of_mem x hz)) y hy

theorem mergeRun_all {P : Inl → Bool}
    (hplain : ∀ t, P (.plain t) = true) :
    ∀ (t : List Nat) (l : List Inl), (∀ x ∈ l, P x = true) → ∀ y ∈ mergeRun t l, P y = true
  | t, [], _, y, hy => by
    rw [mergeRun] at hy
    simp at hy
    subst hy
    exact hplain t
  | t, x :: rest, h, y, hy => by
    rw [mergeRun] at hy
    rcases hpt : plainText? x with _ | t2
    · rw [hpt] at hy
      rcases List.mem_cons.mp hy with h1 | h1
      · exact h1 ▸ hplain t
      · rcases List.mem_cons.mp h1 with h2 | h2
        · exact h2 ▸ h x (List.mem_cons_self x rest)
        · exact mergePlain_all hplain rest (fun z hz => h z (List.mem_cons_of_mem x hz)) y h2
    · rw [hpt] at hy
      exact mergeRun_all hplain (t ++ t2) rest
        (fun z hz => h z (List.mem_cons_of_mem x hz)) y hy
end


/-! ## GitHub autolinking (link.go: autoLinkText). The plain-text rewriter
autoLinkPlain depends on the Unicode letter tables and the URL validators,
so it is the parameter alp; the fact about it used below, visible at every
construction site in link.go (parseAutoHTTP, parseAutoEmail,
parseAutoMailto, parseAutoXmpp), is that a rewrite consists of Plain nodes
and Link nodes whose inner list is a single Plain. -/

mutual
/-- One iteration of the autoLinkText loop (link.go): a Plain is replaced
by its autoLinkPlain rewrite when there is one, Strong, Del and Emph
recurse into their inner lists, and every other node, including Link and
Image, is left untouched. -/
def autoLinkInl (alp : List Nat → Option (List Inl)) : Inl → List Inl
  | .plain t =>
    match alp t with
    | some out => out
    | none => [.plain t]
  | .strong m inner => [.strong m (autoLinkList alp inner)]
  | .del m inner => [.del m (autoLinkList alp inner)]
  | .emph m inner => [.emph m (autoLinkList alp inner)]
  | x => [x]

/-- The autoLinkText loop over a list of inlines. -/
def autoLinkList (alp : List Nat → Option (List Inl)) : List Inl → List Inl
  | [] => []
  | x :: rest => autoLinkInl alp x ++ autoLinkList alp rest
end

/-- Translation of autoLinkText (link.go): the identity unless the
AutoLinkText extension is enabled. -/
def autoLinkText (enabled : Bool) (alp : List Nat → Option (List Inl))
    (list : List Inl) : List Inl :=
  if enabled then autoLinkList alp list else list

/-- Shape of every autoLinkPlain rewrite: Plain nodes and Link nodes with
a single-Plain inner (the only constructions in parseAutoHTTP,
parseAutoEmail, parseAutoMailto and parseAutoXmpp). -/
def AlpShape (alp : List Nat → Option (List Inl)) : Prop :=
  ∀ t out, alp t = some out → ∀ x ∈ out,
    (∃ t2, x = Inl.plain t2) ∨ ∃ t2 u ti tc, x = Inl.link [Inl.plain t2] u ti tc

mutual
theorem autoLinkInl_linkOK (alp : List Nat → Option (List Inl)) (halp : AlpShape alp) :
    ∀ (x : Inl), linkOK x = true → ∀ y ∈ autoLinkInl alp x, linkOK y = true
  | .plain t, _, y, hy => by
    rw [autoLinkInl] at hy
    rcases ha : alp t with _ | out
    · rw [ha] at hy
      simp at hy
      subst hy
      rfl
    · rw [ha] at hy
      rcases halp t out ha y hy with ⟨t2, rfl⟩ | ⟨t2, u, ti, tc, rfl⟩
      · rfl
      · rfl
  | .strong m inner, hx, y, hy => by
    rw [autoLinkInl] at hy
    simp at hy
    subst hy
    rw [linkOK] at hx ⊢
    rw [linkOKL_eq_true_iff] at hx ⊢
    exact autoLinkList_linkOK alp halp inner hx
  | .del m inner, hx, y, hy => by
    rw [autoLinkInl] at hy
    simp at hy
    subst hy
    rw [linkOK] at hx ⊢
    rw [linkOKL_eq_true_iff] at hx ⊢
    exact autoLinkList_linkOK alp halp inner hx
  | .emph m inner, hx, y, hy => by
    rw [autoLinkInl] at hy
    simp at hy
    subst hy
    rw [linkOK] at hx ⊢
    rw [linkOKL_eq_true_iff] at hx ⊢
    exact autoLinkList_linkOK alp halp inner hx
  | .escaped t, hx, y, hy => by
    simp only [autoLinkInl, List.mem_singleton] at hy
    subst hy
    exact hx
  | .codeSpan t, hx, y, hy => by
    simp only [autoLinkInl, List.mem_singleton] at hy
    subst hy
    exact hx
  | .htmlTag t, hx, y, hy => by
    simp only [autoLinkInl, List.mem_singleton] at hy
    subst hy
    exact hx
  | .autoLink t u, hx, y, hy => by
    simp only [autoLinkInl, List.mem_singleton] at hy
    subst hy
    exact hx
  | .emoji a b, hx, y, hy => by
    simp only [autoLinkInl, List.mem_singleton] at hy
    subst hy
    exact hx
  | .hardBreak, hx, y, hy => by
    simp only [autoLinkInl, List.mem_singleton] at hy
    subst hy
    exact hx
  | .softBreak, hx, y, hy => by
    simp only [autoLinkInl, List.mem_singleton] at hy
    subst hy
    exact hx
  | .task c, hx, y, hy => by
    simp only [autoLinkInl, List.mem_singleton] at hy
    subst hy
    exact hx
  | .footnoteLink a, hx, y, hy => by
    simp only [autoLinkInl, List.mem_singleton] at hy
    subst hy
    exact hx
  | .openP a b, hx, y, hy => by
    simp only [autoLinkInl, List.mem_singleton] at hy
    subst hy
    exact hx
  | .emphP a b c d e, hx, y, hy => by
    simp only [autoLinkInl, List.mem_singleton] at hy
    subst hy
    exact hx
  | .link a b c d, hx, y, hy => by
    simp only [autoLinkInl, List.mem_singleton] at hy
    subst hy
    exact hx
  | .image a b c d, hx, y, hy => by
    simp only [autoLinkInl, List.mem_singleton] at hy
    subst hy
    exact hx

theorem autoLinkList_linkOK (alp : List Nat → Option (List Inl)) (halp : AlpShape alp) :
    ∀ (l : List Inl), (∀ x ∈ l, linkOK x = true) →
      ∀ y ∈ autoLinkList alp l, linkOK y = true
  | [], _, y, hy => by rw [autoLinkList] at hy; simp at hy
  | x :: rest, h, y, hy => by
    rw [autoLinkList] at hy
    rcases List.mem_append.mp hy with h1 | h1
    · exact autoLinkInl_linkOK alp halp x (h x (List.mem_cons_self x rest)) y h1
    · exact autoLinkList_linkOK alp halp rest
        (fun z hz => h z (List.mem_cons_of_mem x hz)) y h1
end

/-! ## Node predicates preserved by parser.emph. The constructions the
emphasis pass performs on dst nodes are: appending Plain and emphPlain
nodes, shortening an emphPlain's text, rewriting an emphPlain's text to a
curly quote, and wrapping already-emitted nodes in Emph, Strong or Del.
GoodP captures closure of a predicate under exactly these. -/

/-- Closure conditions under which every construction performed by
parser.emph (inline.go) preserves the node predicate P. -/
structure GoodP (P : Inl → Bool) : Prop where
  hplain : ∀ t, P (.plain t) = true
  hemphP : ∀ t co cc pos n, P (.emphP t co cc pos n) = true
  hemph : ∀ m inner, (∀ x ∈ inner, P x = true) → P (.emph m inner) = true
  hstrong : ∀ m inner, (∀ x ∈ inner, P x = true) → P (.strong m inner) = true
  hdel : ∀ m inner, (∀ x ∈ inner, P x = true) → P (.del m inner) = true

theorem getD_all {P : Inl → Bool} (hplain : ∀ t, P (.plain t) = true)
    (l : List Inl) (h : ∀ x ∈ l, P x = true) (j : Nat) :
    P (l.getD j (.plain [])) = true := by
  rcases Nat.lt_or_ge j l.length with hj | hj
  · rw [List.getD_eq_getElem l _ hj]
    exact h _ (List.getElem_mem hj)
  · rw [List.getD_eq_default _ _ hj]
    exact hplain []

theorem setEmphText_P {P : Inl → Bool}
    (hemphP : ∀ t co cc pos n, P (.emphP t co cc pos n) = true)
    (x : Inl) (t : List Nat) (h : P x = true) : P (setEmphText x t) = true := by
  cases x
  case emphP a co cc pos n => exact hemphP t co cc pos n
  all_goals exact h

theorem emitPlain_all {P : Inl → Bool} (hg : GoodP P)
    (st : EmphState) (text : List Nat) (co cc : Bool) (n : Nat)
    (h : ∀ x ∈ st.dst, P x = true) :
    ∀ y ∈ (emitPlain st text co cc n).dst, P y = true := by
  intro y hy
  rw [emitPlain] at hy
  cases co
  · rw [if_neg (by simp)] at hy
    rcases List.mem_append.mp hy with h1 | h1
    · exact h y h1
    · simp at h1
      subst h1
      exact hg.hplain _
  · rw [if_pos rfl] at hy
    rcases hk : emphStackIndex text cc n with _ | k
    · rw [hk] at hy
      rcases List.mem_append.mp hy with h1 | h1
      · exact h y h1
      · simp at h1
        subst h1
        exact hg.hemphP ..
    · rw [hk] at hy
      rcases List.mem_append.mp hy with h1 | h1
      · exact h y h1
      · simp at h1
        subst h1
        exact hg.hemphP ..

theorem append_one_all {P : Inl → Bool} (l : List Inl) (v : Inl)
    (h : ∀ x ∈ l, P x = true) (hv : P v = true) :
    ∀ z ∈ l ++ [v], P z = true := by
  intro z hz
  rcases List.mem_append.mp hz with h1 | h1
  · exact h z h1
  · simp at h1
    subst h1
    exact hv

theorem take_set_all {P : Inl → Bool} (l : List Inl) (j k : Nat) (v : Inl)
    (h : ∀ x ∈ l, P x = true) (hv : P v = true) :
    ∀ z ∈ (l.set j v).take k, P z = true := by
  intro z hz
  rcases List.mem_or_eq_of_mem_set (List.mem_of_mem_take hz) with h2 | h2
  · exact h z h2
  · subst h2
    exact hv

theorem emphMatch_all {P : Inl → Bool} (hg : GoodP P)
    (st : EmphState) (ct : List Nat) (c j : Nat)
    (h : ∀ x ∈ st.dst, P x = true) :
    ∀ y ∈ (emphMatch st ct c j).1.dst, P y = true := by
  have hinner : ∀ y ∈ mergePlain (st.dst.drop (j + 1)), P y = true :=
    mergePlain_all hg.hplain _ (fun z hz => h z (List.mem_of_mem_drop hz))
  intro y hy
  rw [emphMatch] at hy
  split at hy
  case _ stext sco scc spos sn hnode =>
    dsimp only at hy
    rcases List.mem_append.mp hy with h1 | h1
    · repeat' split at h1
      all_goals
        first
        | exact h y (List.mem_of_mem_take h1)
        | exact take_set_all st.dst _ _ _ h (hg.hemphP ..) y h1
    · simp at h1
      subst h1
      split
      · exact hg.hdel _ _ (fun z hz => hinner z hz)
      · split
        · exact hg.hstrong _ _ (fun z hz => hinner z hz)
        · exact hg.hemph _ _ (fun z hz => hinner z hz)
  case _ =>
    exact h y hy

theorem processCloseF_all {P : Inl → Bool} (hg : GoodP P) :
    ∀ (fuel : Nat) (st : EmphState) (ct : List Nat) (co : Bool) (n : Nat),
      (∀ x ∈ st.dst, P x = true) →
      ∀ y ∈ (processCloseF fuel st ct co n).dst, P y = true
  | 0, st, ct, co, n, h => by
    intro y hy
    rw [processCloseF] at hy
    exact h y hy
  | fuel + 1, st, ct, co, n, h => by
    intro y hy
    rw [processCloseF] at hy
    split at hy
    case _ => exact h y hy
    case _ c hc =>
      by_cases hdq : c = bDQuote
      · rw [if_pos hdq] at hy
        split at hy
        case _ => exact emitPlain_all hg st ct co true n h y hy
        case _ j stk2 hs =>
          dsimp only at hy
          refine append_one_all _ _ ?_ (hg.hplain _) y hy
          intro z hz
          rcases List.mem_or_eq_of_mem_set hz with h2 | h2
          · exact h z h2
          · subst h2
            exact setEmphText_P hg.hemphP _ _ (getD_all hg.hplain _ h j)
      · rw [if_neg hdq] at hy
        by_cases hsq : c = bSQuote
        · rw [if_pos hsq] at hy
          split at hy
          case _ => exact emitPlain_all hg st ct co true n h y hy
          case _ j stk2 hs =>
            dsimp only at hy
            refine append_one_all _ _ ?_ (hg.hplain _) y hy
            intro z hz
            rcases List.mem_or_eq_of_mem_set hz with h2 | h2
            · exact h z h2
            · subst h2
              exact setEmphText_P hg.hemphP _ _ (getD_all hg.hplain _ h j)
        · rw [if_neg hsq] at hy
          dsimp only at hy
          rcases hop : (if c = bTilde then (stackGet st (ct.length - 1)).head?
              else if c = bStar ∨ c = bUnder then
                emphFindOpener st (if c = bUnder then 10 else 4) co n
              else none) with _ | j
          · rw [hop] at hy
            exact emitPlain_all hg st ct co true n h y hy
          · rw [hop] at hy
            dsimp only at hy
            rcases hm : emphMatch st ct c j with ⟨st2, ct2⟩
            rw [hm] at hy
            dsimp only at hy
            have hst2 : ∀ x ∈ st2.dst, P x = true := by
              intro x hx
              exact emphMatch_all hg st ct c j h x (by rw [hm]; exact hx)
            split at hy
            · exact hst2 y hy
            · exact processCloseF_all hg fuel st2 ct2 co n hst2 y hy

theorem emphLoop_all {P : Inl → Bool} (hg : GoodP P) :
    ∀ (src : List Inl) (st : EmphState),
      (∀ x ∈ st.dst, P x = true) → (∀ x ∈ src, P x = true) →
      ∀ y ∈ (emphLoop st src).dst, P y = true
  | [], st, h, _ => by
    intro y hy
    rw [emphLoop] at hy
    exact h y hy
  | x :: rest, st, h, hsrc => by
    have hrest : ∀ z ∈ rest, P z = true :=
      fun z hz => hsrc z (List.mem_cons_of_mem x hz)
    intro y hy
    cases x
    case emphP t co cc pos n =>
      cases cc
      · exact emphLoop_all hg rest _ (emitPlain_all hg st t co false n h) hrest y hy
      · exact emphLoop_all hg rest _
          (processCloseF_all hg (t.length + 1) st t co n h) hrest y hy
    case openP t pos =>
      exact emphLoop_all hg rest _
        (append_one_all st.dst _ h (hg.hplain t)) hrest y hy
    all_goals
      exact emphLoop_all hg rest _
        (append_one_all st.dst _ h (hsrc _ (List.mem_cons_self _ _))) hrest y hy

theorem emphRun_all {P : Inl → Bool} (hg : GoodP P)
    (src : List Inl) (hsrc : ∀ x ∈ src, P x = true) :
    ∀ y ∈ emphRun src, P y = true := by
  intro y hy
  rw [emphRun] at hy
  refine mergePlain_all hg.hplain _ (emphLoop_all hg src _ ?_ hsrc) y hy
  intro x hx
  simp at hx

/-- linkOK satisfies the closure conditions. -/
theorem goodP_linkOK : GoodP linkOK := by
  refine ⟨fun t => rfl, fun t co cc pos n => rfl, ?_, ?_, ?_⟩ <;>
    intro m inner h <;> rw [linkOK, linkOKL_eq_true_iff] <;> exact h

/-- Absence of links at any depth satisfies the closure conditions. -/
theorem goodP_noLink : GoodP (fun x => !hasLinkDeep x) := by
  refine ⟨fun t => rfl, fun t co cc pos n => rfl, ?_, ?_, ?_⟩ <;>
    intro m inner h <;>
    simp only [hasLinkDeep, Bool.not_eq_true', hasLinkDeepL_eq_false_iff] <;>
    intro x hx <;> simpa using h x hx


/-! ## The inline scanner's bracket discipline (inline.go: parser.inline).
The scanner walks the text once, appending leaf inlines to p.list, pushing
openPlain nodes for [ and ![ onto the opens stack (each records the input
position just past its bracket, the field open.i), and on a ] popping the
most recent opener: a link may form only when the opener's position is at
or after ignoreLinkBefore, an image always may. The span after the opener
runs through parser.emph and becomes the new node's inner list, the opener
and span are replaced by the node, and after a link forms ignoreLinkBefore
advances to the link opener's position. The leaf parsers (parseEscape,
parseCodeSpan, parseAutoLinkOrHTML, parseEmph, parseBreak, parseHTMLEntity,
parseEmoji, parseFootnoteRef, the smart punctuation parsers, and plain-text
emission) never produce Link, Image, Emph, Strong, Del or openPlain nodes,
which is the leaf step's side condition; parseLinkClose's URL, title and
title character are abstracted as arbitrary values. Opener positions grow
strictly up the stack because the scan offset only advances. -/

/-- State of the scanner loop: the working list p.list, the stack opens of
openPlain indexes, and ignoreLinkBefore. -/
structure ScanState where
  list : List Inl
  opens : List Nat
  ig : Nat

/-- The input position recorded in the openPlain node at index i of the
list (the field open.i in the Go code). -/
def openPos (l : List Inl) (i : Nat) : Nat :=
  match l.getD i (.plain []) with
  | .openP _ p => p
  | _ => 0

/-- The node kinds a leaf inline parser can append to p.list. -/
def scanLeaf : Inl → Bool
  | .plain _ => true
  | .escaped _ => true
  | .codeSpan _ => true
  | .htmlTag _ => true
  | .autoLink _ _ => true
  | .emoji _ _ => true
  | .hardBreak => true
  | .softBreak => true
  | .task _ => true
  | .footnoteLink _ => true
  | .emphP _ _ _ _ _ => true
  | _ => false

/-- One iteration of the scanner loop of parser.inline (inline.go): a leaf
append; an opener push; a close attempt that pops the most recent opener
and fails (gate or parseLinkClose failure, the opener staying in the list);
and a successful link or image close replacing the opener and the span
after it by the finished node. -/
inductive ScanStep : ScanState → ScanState → Prop where
  | leaf (l : List Inl) (opens : List Nat) (ig : Nat) (x : Inl)
      (hx : scanLeaf x = true) :
      ScanStep ⟨l, opens, ig⟩ ⟨l ++ [x], opens, ig⟩
  | openBracket (l : List Inl) (opens : List Nat) (ig : Nat) (t : List Nat) (p : Nat)
      (ht : t = [bLBrack] ∨ t = [bBang, bLBrack])
      (hpos : ∀ oi ∈ opens, openPos l oi < p) :
      ScanStep ⟨l, opens, ig⟩ ⟨l ++ [.openP t p], opens ++ [l.length], ig⟩
  | closeFail (l : List Inl) (opens0 : List Nat) (oi ig : Nat) :
      ScanStep ⟨l, opens0 ++ [oi], ig⟩ ⟨l, opens0, ig⟩
  | closeLink (l : List Inl) (opens0 : List Nat) (oi ig p : Nat)
      (url title : List Nat) (tc : Nat)
      (hnode : l.getD oi (.plain []) = .openP [bLBrack] p)
      (hgate : ig ≤ p) :
      ScanStep ⟨l, opens0 ++ [oi], ig⟩
        ⟨l.take oi ++ [.link (emphRun (l.drop (oi + 1))) url title tc], opens0, p⟩
  | closeImage (l : List Inl) (opens0 : List Nat) (oi ig p : Nat)
      (url title : List Nat) (tc : Nat)
      (hnode : l.getD oi (.plain []) = .openP [bBang, bLBrack] p) :
      ScanStep ⟨l, opens0 ++ [oi], ig⟩
        ⟨l.take oi ++ [.image (emphRun (l.drop (oi + 1))) url title tc], opens0, ig⟩

/-- The wrap-up of parser.inline after the scan loop: parser.emph over the
whole list, a further mergePlain, then autoLinkText. -/
def scanFinish (enabled : Bool) (alp : List Nat → Option (List Inl))
    (st : ScanState) : List Inl :=
  autoLinkText enabled alp (mergePlain (emphRun st.list))

/-- Invariant of the scanner state: the list satisfies the no-link-inside-
link property; every stacked index addresses an in-range openPlain bracket
node; indexes and their recorded positions grow strictly up the stack; and
the span after any live link opener (a [ opener whose position is at or
after ignoreLinkBefore) contains no Link at any depth. -/
structure ScanInv (st : ScanState) : Prop where
  ok : linkOKL st.list = true
  shape : ∀ oi ∈ st.opens, oi < st.list.length ∧ ∃ t p,
    st.list.getD oi (.plain []) = .openP t p ∧ (t = [bLBrack] ∨ t = [bBang, bLBrack])
  incr : List.Pairwise (fun a b => a < b) st.opens
  pos : List.Pairwise (fun a b => openPos st.list a < openPos st.list b) st.opens
  nolink : ∀ oi ∈ st.opens, ∀ p, st.list.getD oi (.plain []) = .openP [bLBrack] p →
    st.ig ≤ p → hasLinkDeepL (st.list.drop (oi + 1)) = false

theorem scanLeaf_no_link (x : Inl) (h : scanLeaf x = true) : hasLinkDeep x = false := by
  cases x <;> simp_all [scanLeaf, hasLinkDeep]

theorem getD_append_lt (l l2 : List Inl) (d : Inl) (n : Nat) (h : n < l.length) :
    (l ++ l2).getD n d = l.getD n d := by
  rw [List.getD_eq_getElem?_getD, List.getD_eq_getElem?_getD, List.getElem?_append,
    if_pos h]

theorem getD_take_lt (l : List Inl) (d : Inl) (k n : Nat) (h : n < k) :
    (l.take k).getD n d = l.getD n d := by
  rw [List.getD_eq_getElem?_getD, List.getD_eq_getElem?_getD, List.getElem?_take,
    if_pos h]

theorem getD_append_length (l : List Inl) (x d : Inl) :
    (l ++ [x]).getD l.length d = x := by
  rw [List.getD_eq_getElem?_getD, List.getElem?_concat_length]
  rfl

theorem openPos_append (l l2 : List Inl) (i : Nat) (h : i < l.length) :
    openPos (l ++ l2) i = openPos l i := by
  rw [openPos, openPos, getD_append_lt _ _ _ _ h]

theorem openPos_take_append (l l2 : List Inl) (k i : Nat) (h : i < k)
    (h2 : i < l.length) : openPos (l.take k ++ l2) i = openPos l i := by
  rw [openPos, openPos, getD_append_lt, getD_take_lt _ _ _ _ h]
  rw [List.length_take]
  exact lt_min h h2

theorem getD_take_append_lt (l l2 : List Inl) (d : Inl) (k n : Nat) (h : n < k)
    (h2 : n < l.length) : (l.take k ++ l2).getD n d = l.getD n d := by
  rw [getD_append_lt, getD_take_lt _ _ _ _ h]
  rw [List.length_take]
  exact lt_min h h2


theorem linkOKL_singleton (x : Inl) : linkOKL [x] = linkOK x := by
  rw [linkOKL, linkOKL]
  exact Bool.and_true _

theorem hasLinkDeepL_singleton (x : Inl) : hasLinkDeepL [x] = hasLinkDeep x := by
  rw [hasLinkDeepL, hasLinkDeepL]
  exact Bool.or_false _

theorem hasLinkDeepL_of_subset {l1 l2 : List Inl}
    (hsub : ∀ x ∈ l1, x ∈ l2) (h : hasLinkDeepL l2 = false) :
    hasLinkDeepL l1 = false := by
  rw [hasLinkDeepL_eq_false_iff] at h ⊢
  exact fun x hx => h x (hsub x hx)

theorem linkOKL_of_subset {l1 l2 : List Inl}
    (hsub : ∀ x ∈ l1, x ∈ l2) (h : linkOKL l2 = true) : linkOKL l1 = true := by
  rw [linkOKL_eq_true_iff] at h ⊢
  exact fun x hx => h x (hsub x hx)

theorem scanInv_step {s1 s2 : ScanState} (hstep : ScanStep s1 s2) (hinv : ScanInv s1) :
    ScanInv s2 := by
  cases hstep with
  | leaf l opens ig x hx =>
    have hok : linkOKL l = true := hinv.ok
    have hshape : ∀ oi ∈ opens, oi < l.length ∧ ∃ t p,
        l.getD oi (Inl.plain []) = Inl.openP t p ∧
        (t = [bLBrack] ∨ t = [bBang, bLBrack]) := hinv.shape
    have hpos : List.Pairwise (fun a b => openPos l a < openPos l b) opens := hinv.pos
    have hnolink : ∀ oi ∈ opens, ∀ p, l.getD oi (Inl.plain []) = Inl.openP [bLBrack] p →
        ig ≤ p → hasLinkDeepL (l.drop (oi + 1)) = false := hinv.nolink
    refine ⟨?_, ?_, hinv.incr, ?_, ?_⟩
    · show linkOKL (l ++ [x]) = true
      rw [linkOKL_append, hok, linkOKL_singleton,
        linkOK_of_not_hasLinkDeep x (scanLeaf_no_link x hx)]
      rfl
    · intro oi hoi
      obtain ⟨hlt, t, p, hget, ht⟩ := hshape oi hoi
      refine ⟨?_, t, p, ?_, ht⟩
      · show oi < (l ++ [x]).length
        rw [List.length_append]
        omega
      · show (l ++ [x]).getD oi (Inl.plain []) = Inl.openP t p
        rw [getD_append_lt _ _ _ _ hlt]
        exact hget
    · show List.Pairwise (fun a b => openPos (l ++ [x]) a < openPos (l ++ [x]) b) opens
      refine hpos.imp_of_mem ?_
      intro a b ha hb hab
      rw [openPos_append _ _ _ (hshape a ha).1, openPos_append _ _ _ (hshape b hb).1]
      exact hab
    · intro oi hoi p hget hig
      have hlt := (hshape oi hoi).1
      replace hget : (l ++ [x]).getD oi (Inl.plain []) = Inl.openP [bLBrack] p := hget
      rw [getD_append_lt _ _ _ _ hlt] at hget
      show hasLinkDeepL ((l ++ [x]).drop (oi + 1)) = false
      rw [List.drop_append_of_le_length hlt, hasLinkDeepL_append,
        hnolink oi hoi p hget hig, hasLinkDeepL_singleton, scanLeaf_no_link x hx]
      rfl
  | openBracket l opens ig t p ht hpos2 =>
    have hok : linkOKL l = true := hinv.ok
    have hshape : ∀ oi ∈ opens, oi < l.length ∧ ∃ t2 p2,
        l.getD oi (Inl.plain []) = Inl.openP t2 p2 ∧
        (t2 = [bLBrack] ∨ t2 = [bBang, bLBrack]) := hinv.shape
    have hpos : List.Pairwise (fun a b => openPos l a < openPos l b) opens := hinv.pos
    have hnolink : ∀ oi ∈ opens, ∀ p2, l.getD oi (Inl.plain []) = Inl.openP [bLBrack] p2 →
        ig ≤ p2 → hasLinkDeepL (l.drop (oi + 1)) = false := hinv.nolink
    refine ⟨?_, ?_, ?_, ?_, ?_⟩
    · show linkOKL (l ++ [Inl.openP t p]) = true
      rw [linkOKL_append, hok, linkOKL_singleton]
      rfl
    · intro oi hoi
      replace hoi : oi ∈ opens ++ [l.length] := hoi
      rcases List.mem_append.mp hoi with h1 | h1
      · obtain ⟨hlt, t2, p2, hget, ht2⟩ := hshape oi h1
        refine ⟨?_, t2, p2, ?_, ht2⟩
        · show oi < (l ++ [Inl.openP t p]).length
          rw [List.length_append]
          omega
        · show (l ++ [Inl.openP t p]).getD oi (Inl.plain []) = Inl.openP t2 p2
          rw [getD_append_lt _ _ _ _ hlt]
          exact hget
      · simp only [List.mem_singleton] at h1
        subst h1
        refine ⟨?_, t, p, getD_append_length l _ _, ht⟩
        show l.length < (l ++ [Inl.openP t p]).length
        simp only [List.length_append, List.length_singleton]
        omega
    · show List.Pairwise (fun a b => a < b) (opens ++ [l.length])
      rw [List.pairwise_append]
      refine ⟨hinv.incr, by simp, ?_⟩
      intro a ha b hb
      simp only [List.mem_singleton] at hb
      subst hb
      exact (hshape a ha).1
    · show List.Pairwise
        (fun a b => openPos (l ++ [Inl.openP t p]) a < openPos (l ++ [Inl.openP t p]) b)
        (opens ++ [l.length])
      rw [List.pairwise_append]
      refine ⟨hpos.imp_of_mem ?_, by simp, ?_⟩
      · intro a b ha hb hab
        rw [openPos_append _ _ _ (hshape a ha).1, openPos_append _ _ _ (hshape b hb).1]
        exact hab
      · intro a ha b hb
        simp only [List.mem_singleton] at hb
        subst hb
        rw [openPos_append _ _ _ (hshape a ha).1]
        have hlast : openPos (l ++ [Inl.openP t p]) l.length = p := by
          rw [openPos, getD_append_length]
        rw [hlast]
        exact hpos2 a ha
    · intro oi hoi p2 hget hig
      replace hoi : oi ∈ opens ++ [l.length] := hoi
      replace hget : (l ++ [Inl.openP t p]).getD oi (Inl.plain [])
          = Inl.openP [bLBrack] p2 := hget
      rcases List.mem_append.mp hoi with h1 | h1
      · have hlt := (hshape oi h1).1
        rw [getD_append_lt _ _ _ _ hlt] at hget
        show hasLinkDeepL ((l ++ [Inl.openP t p]).drop (oi + 1)) = false
        rw [List.drop_append_of_le_length hlt, hasLinkDeepL_append,
          hnolink oi h1 p2 hget hig, hasLinkDeepL_singleton]
        simp [hasLinkDeep]
      · simp only [List.mem_singleton] at h1
        subst h1
        show hasLinkDeepL ((l ++ [Inl.openP t p]).drop (l.length + 1)) = false
        rw [show l.length + 1 = (l ++ [Inl.openP t p]).length by
            simp, List.drop_length]
        rfl
  | closeFail l opens0 oi ig =>
    have hsub : List.Sublist opens0 (opens0 ++ [oi]) := List.sublist_append_left _ _
    exact ⟨hinv.ok, fun oi2 h2 => hinv.shape oi2 (List.mem_append_left _ h2),
      hinv.incr.sublist hsub, hinv.pos.sublist hsub,
      fun oi2 h2 => hinv.nolink oi2 (List.mem_append_left _ h2)⟩
  | closeLink l opens0 oi ig p url title tc hnode hgate =>
    have hok : linkOKL l = true := hinv.ok
    have hshape : ∀ a ∈ opens0 ++ [oi], a < l.length ∧ ∃ t2 p2,
        l.getD a (Inl.plain []) = Inl.openP t2 p2 ∧
        (t2 = [bLBrack] ∨ t2 = [bBang, bLBrack]) := hinv.shape
    have hincr : List.Pairwise (fun a b => a < b) (opens0 ++ [oi]) := hinv.incr
    have hposp : List.Pairwise (fun a b => openPos l a < openPos l b)
        (opens0 ++ [oi]) := hinv.pos
    have hnolink : ∀ a ∈ opens0 ++ [oi], ∀ p2,
        l.getD a (Inl.plain []) = Inl.openP [bLBrack] p2 →
        ig ≤ p2 → hasLinkDeepL (l.drop (a + 1)) = false := hinv.nolink
    have hsub : List.Sublist opens0 (opens0 ++ [oi]) := List.sublist_append_left _ _
    have hmem : oi ∈ opens0 ++ [oi] := List.mem_append_right _ (List.mem_singleton.mpr rfl)
    have hlt : oi < l.length := (hshape oi hmem).1
    have hbelow : ∀ a ∈ opens0, a < oi := by
      rw [List.pairwise_append] at hincr
      intro a ha
      exact hincr.2.2 a ha oi (List.mem_singleton.mpr rfl)
    have hposbelow : ∀ a ∈ opens0, openPos l a < p := by
      rw [List.pairwise_append] at hposp
      intro a ha
      have h3 := hposp.2.2 a ha oi (List.mem_singleton.mpr rfl)
      rwa [show openPos l oi = p by rw [openPos, hnode]] at h3
    have hfree : hasLinkDeepL (l.drop (oi + 1)) = false :=
      hnolink oi hmem p hnode hgate
    have hinner : hasLinkDeepL (emphRun (l.drop (oi + 1))) = false := by
      rw [hasLinkDeepL_eq_false_iff]
      intro x hx
      have h2 := emphRun_all goodP_noLink (l.drop (oi + 1)) ?_ x hx
      · simpa using h2
      · intro z hz
        rw [hasLinkDeepL_eq_false_iff] at hfree
        simpa using hfree z hz
    have hnode_ok : linkOK (Inl.link (emphRun (l.drop (oi + 1))) url title tc) = true := by
      rw [linkOK, hinner, linkOKL_of_not_hasLinkDeepL _ hinner]
      rfl
    have hgetpres : ∀ a ∈ opens0,
        (l.take oi ++ [Inl.link (emphRun (l.drop (oi + 1))) url title tc]).getD a
          (Inl.plain []) = l.getD a (Inl.plain []) := fun a ha =>
      getD_take_append_lt _ _ _ _ _ (hbelow a ha) (lt_trans (hbelow a ha) hlt)
    have hincr2 : List.Pairwise (fun a b => a < b) opens0 := hinv.incr.sublist hsub
    refine ⟨?_, ?_, hincr2, ?_, ?_⟩
    · show linkOKL (l.take oi ++ [Inl.link (emphRun (l.drop (oi + 1))) url title tc])
        = true
      rw [linkOKL_append, linkOKL_of_subset (fun x hx => List.mem_of_mem_take hx) hok,
        linkOKL_singleton, hnode_ok]
      rfl
    · intro a ha
      obtain ⟨_, t2, p2, hget, ht2⟩ := hshape a (List.mem_append_left _ ha)
      refine ⟨?_, t2, p2, ?_, ht2⟩
      · show a < (l.take oi ++ [Inl.link (emphRun (l.drop (oi + 1))) url title tc]).length
        rw [List.length_append, List.length_take]
        have h3 := hbelow a ha
        have h4 : min oi l.length = oi := by omega
        rw [h4]
        omega
      · show (l.take oi ++ [Inl.link (emphRun (l.drop (oi + 1))) url title tc]).getD a
          (Inl.plain []) = Inl.openP t2 p2
        rw [hgetpres a ha]
        exact hget
    · show List.Pairwise (fun a b =>
        openPos (l.take oi ++ [Inl.link (emphRun (l.drop (oi + 1))) url title tc]) a <
        openPos (l.take oi ++ [Inl.link (emphRun (l.drop (oi + 1))) url title tc]) b)
        opens0
      refine (hinv.pos.sublist hsub).imp_of_mem ?_
      intro a b ha hb hab
      rw [openPos_take_append _ _ _ _ (hbelow a ha) (lt_trans (hbelow a ha) hlt),
        openPos_take_append _ _ _ _ (hbelow b hb) (lt_trans (hbelow b hb) hlt)]
      exact hab
    · intro a ha p2 hget hig
      exfalso
      replace hget : (l.take oi ++
          [Inl.link (emphRun (l.drop (oi + 1))) url title tc]).getD a (Inl.plain [])
          = Inl.openP [bLBrack] p2 := hget
      rw [hgetpres a ha] at hget
      have hpa : openPos l a = p2 := by rw [openPos, hget]
      have h2 := hposbelow a ha
      rw [hpa] at h2
      replace hig : p ≤ p2 := hig
      omega
  | closeImage l opens0 oi ig p url title tc hnode =>
    have hok : linkOKL l = true := hinv.ok
    have hshape : ∀ a ∈ opens0 ++ [oi], a < l.length ∧ ∃ t2 p2,
        l.getD a (Inl.plain []) = Inl.openP t2 p2 ∧
        (t2 = [bLBrack] ∨ t2 = [bBang, bLBrack]) := hinv.shape
    have hincr : List.Pairwise (fun a b => a < b) (opens0 ++ [oi]) := hinv.incr
    have hnolink : ∀ a ∈ opens0 ++ [oi], ∀ p2,
        l.getD a (Inl.plain []) = Inl.openP [bLBrack] p2 →
        ig ≤ p2 → hasLinkDeepL (l.drop (a + 1)) = false := hinv.nolink
    have hsub : List.Sublist opens0 (opens0 ++ [oi]) := List.sublist_append_left _ _
    have hmem : oi ∈ opens0 ++ [oi] := List.mem_append_right _ (List.mem_singleton.mpr rfl)
    have hlt : oi < l.length := (hshape oi hmem).1
    have hbelow : ∀ a ∈ opens0, a < oi := by
      rw [List.pairwise_append] at hincr
      intro a ha
      exact hincr.2.2 a ha oi (List.mem_singleton.mpr rfl)
    have hinner_ok : linkOKL (emphRun (l.drop (oi + 1))) = true := by
      rw [linkOKL_eq_true_iff]
      intro x hx
      refine emphRun_all goodP_linkOK (l.drop (oi + 1)) ?_ x hx
      intro z hz
      exact (linkOKL_eq_true_iff l).mp hok z (List.mem_of_mem_drop hz)
    have hnode_ok : linkOK (Inl.image (emphRun (l.drop (oi + 1))) url title tc)
        = true := by
      rw [linkOK]
      exact hinner_ok
    have hgetpres : ∀ a ∈ opens0,
        (l.take oi ++ [Inl.image (emphRun (l.drop (oi + 1))) url title tc]).getD a
          (Inl.plain []) = l.getD a (Inl.plain []) := fun a ha =>
      getD_take_append_lt _ _ _ _ _ (hbelow a ha) (lt_trans (hbelow a ha) hlt)
    refine ⟨?_, ?_, hinv.incr.sublist hsub, ?_, ?_⟩
    · show linkOKL (l.take oi ++ [Inl.image (emphRun (l.drop (oi + 1))) url title tc])
        = true
      rw [linkOKL_append, linkOKL_of_subset (fun x hx => List.mem_of_mem_take hx) hok,
        linkOKL_singleton, hnode_ok]
      rfl
    · intro a ha
      obtain ⟨_, t2, p2, hget, ht2⟩ := hshape a (List.mem_append_left _ ha)
      refine ⟨?_, t2, p2, ?_, ht2⟩
      · show a < (l.take oi ++
          [Inl.image (emphRun (l.drop (oi + 1))) url title tc]).length
        rw [List.length_append, List.length_take]
        have h3 := hbelow a ha
        have h4 : min oi l.length = oi := by omega
        rw [h4]
        omega
      · show (l.take oi ++ [Inl.image (emphRun (l.drop (oi + 1))) url title tc]).getD a
          (Inl.plain []) = Inl.openP t2 p2
        rw [hgetpres a ha]
        exact hget
    · show List.Pairwise (fun a b =>
        openPos (l.take oi ++ [Inl.image (emphRun (l.drop (oi + 1))) url title tc]) a <
        openPos (l.take oi ++ [Inl.image (emphRun (l.drop (oi + 1))) url title tc]) b)
        opens0
      refine (hinv.pos.sublist hsub).imp_of_mem ?_
      intro a b ha hb hab
      rw [openPos_take_append _ _ _ _ (hbelow a ha) (lt_trans (hbelow a ha) hlt),
        openPos_take_append _ _ _ _ (hbelow b hb) (lt_trans (hbelow b hb) hlt)]
      exact hab
    · intro a ha p2 hget hig
      replace hget : (l.take oi ++
          [Inl.image (emphRun (l.drop (oi + 1))) url title tc]).getD a (Inl.plain [])
          = Inl.openP [bLBrack] p2 := hget
      replace hig : ig ≤ p2 := hig
      rw [hgetpres a ha] at hget
      have hfree : hasLinkDeepL (l.drop (a + 1)) = false :=
        hnolink a (List.mem_append_left _ ha) p2 hget hig
      show hasLinkDeepL ((l.take oi ++
        [Inl.image (emphRun (l.drop (oi + 1))) url title tc]).drop (a + 1)) = false
      have hha : a + 1 ≤ (l.take oi).length := by
        rw [List.length_take]
        have h3 := hbelow a ha
        omega
      rw [List.drop_append_of_le_length hha, hasLinkDeepL_append]
      have h1 : hasLinkDeepL ((l.take oi).drop (a + 1)) = false := by
        refine hasLinkDeepL_of_subset ?_ hfree
        intro x hx
        rw [List.drop_take] at hx
        exact List.mem_of_mem_take hx
      have h2 : hasLinkDeep (Inl.image (emphRun (l.drop (oi + 1))) url title tc)
          = false := by
        rw [hasLinkDeep, hasLinkDeepL_eq_false_iff]
        intro x hx
        have hsrc : ∀ z ∈ l.drop (oi + 1), (!hasLinkDeep z) = true := by
          intro z hz
          have hdd : l.drop (oi + 1) = (l.drop (a + 1)).drop (oi - a) := by
            rw [List.drop_drop]
            congr 1
            have h3 := hbelow a ha
            omega
          rw [hdd] at hz
          have hz2 : z ∈ l.drop (a + 1) := List.mem_of_mem_drop hz
          rw [hasLinkDeepL_eq_false_iff] at hfree
          simpa using hfree z hz2
        have h3 := emphRun_all goodP_noLink _ hsrc x hx
        simpa using h3
      rw [h1, hasLinkDeepL_singleton, h2]
      rfl


theorem scanInv_steps {st : ScanState}
    (h : Relation.ReflTransGen ScanStep ⟨[], [], 0⟩ st) : ScanInv st := by
  induction h with
  | refl => exact ⟨rfl, by simp, by simp, by simp, by simp⟩
  | tail _ hbc ih => exact scanInv_step hbc ih

/-- C8: in every inline list parser.inline produces — any scanner run from
the empty state, finished by parser.emph, mergePlain and autoLinkText — a
Link node's inner sequence contains no Link at any nesting depth, and every
node of the list satisfies this recursively (linkOKL). The autoLinkPlain
rewriter is abstracted by the shape its construction sites guarantee. -/
theorem claim8_no_link_in_link (enabled : Bool)
    (alp : List Nat → Option (List Inl)) (halp : AlpShape alp)
    (st : ScanState)
    (hsteps : Relation.ReflTransGen ScanStep ⟨[], [], 0⟩ st) :
    linkOKL (scanFinish enabled alp st) = true := by
  have hinv := scanInv_steps hsteps
  have h1 : ∀ x ∈ emphRun st.list, linkOK x = true :=
    emphRun_all goodP_linkOK st.list ((linkOKL_eq_true_iff _).mp hinv.ok)
  have h2 : ∀ x ∈ mergePlain (emphRun st.list), linkOK x = true :=
    mergePlain_all goodP_linkOK.hplain _ h1
  rw [scanFinish, autoLinkText]
  split
  · exact (linkOKL_eq_true_iff _).mpr (autoLinkList_linkOK alp halp _ h2)
  · exact (linkOKL_eq_true_iff _).mpr h2

theorem claim8_witness :
    linkOKL (scanFinish true (fun _ => none)
      (ScanState.mk
        (List.take 0 [Inl.openP [bLBrack] 1, Inl.plain (bs "a")] ++
          [Inl.link (emphRun (List.drop 1 [Inl.openP [bLBrack] 1, Inl.plain (bs "a")]))
            (bs "u") [] 0])
        [] 1)) = true :=
  claim8_no_link_in_link true (fun _ => none)
    (fun _ _ h => nomatch h)
    _
    (Relation.ReflTransGen.tail
      (Relation.ReflTransGen.tail
        (Relation.ReflTransGen.tail Relation.ReflTransGen.refl
          (ScanStep.openBracket [] [] 0 [bLBrack] 1 (Or.inl rfl)
            (fun _ hoi => nomatch hoi)))
        (ScanStep.leaf [Inl.openP [bLBrack] 1] [0] 0 (Inl.plain (bs "a")) rfl))
      (ScanStep.closeLink [Inl.openP [bLBrack] 1, Inl.plain (bs "a")] [] 0 0 1
        (bs "u") [] 0 rfl (Nat.zero_le 1)))

end MD
